/-
  Verification of the query-planning and execution core of the cayley
  graph database (shape algebra, generic optimizer, iterator layer).

  The definitions below are a shallow embedding of the Go sources:
    * query/shape (part_010)          : Null, Fixed, FixedTags, Materialize,
                                        Union, Page, Unique, Save, MaterializeThreshold
    * query/shape/gshape (part_009,
      query/shape/gshape/query_shapes.go)
                                      : Intersect, AllNodes, Quads, NodesFrom, QuadsAction
    * query/shape/path.go             : the generic optimize entry point
    * graph/iterator                  : Fixed, Skip, Count, Unique, ValueFilter, Recursive
    * graph/path/morphism_apply_functions.go : iteratorShape (one-shot prebuilt iterator)

  Store refs (values.Ref) are modelled as natural numbers; values.ToKey is the
  identity on this model.  Go maps keyed by directions / strings are modelled as
  association lists with insert-or-replace semantics, which fixes one iteration
  order (Go map iteration order is unspecified).  Machine integers (int64) are
  modelled as Int; where the source performs int64 arithmetic that can
  overflow (the skip/limit arithmetic of Page.ApplyPage), the model applies
  an explicit two's-complement wrap into [-2^63, 2^63) (wrap64).

  The generic optimizer in Go re-enters itself on freshly built shapes
  (for example when hoisting Save or FixedTags out of an intersection), so the
  embedding uses an explicit recursion-depth budget (fuel):
  optimizeF n s = some r  means the Go optimizer returns r within call depth n.
-/
import Mathlib

namespace Cayley

/-- A store reference (values.Ref); key equality (values.ToKey) is plain equality. -/
abbrev Ref := Nat

/-- quad.Direction. -/
inductive Direction where
  | subject
  | predicate
  | object
  | label
  | any
  deriving DecidableEq, Repr

/-- The shape tree of the query algebra (query/shape and query/shape/gshape).
Go nil shapes and shape.Null are conflated into a single null constructor,
exactly as the source's IsNull helper treats them. -/
inductive Shape where
  /-- shape.Null and nil shapes. -/
  | null
  /-- gshape.AllNodes. -/
  | allNodes
  /-- shape.Fixed: a static set of refs. -/
  | fixed (refs : List Ref)
  /-- shape.Union. -/
  | union (subs : List Shape)
  /-- gshape.Intersect. -/
  | intersect (subs : List Shape)
  /-- gshape.Quads: a list of QuadFilter (direction plus value shape). -/
  | quads (filters : List (Direction × Shape))
  /-- gshape.NodesFrom. -/
  | nodesFrom (dir : Direction) (qs : Shape)
  /-- gshape.QuadsAction: Size, Result, Save map, Filter map. -/
  | quadsAction (size : Int) (result : Direction)
      (saveTags : List (Direction × List String)) (filter : List (Direction × Ref))
  /-- shape.Save: tags over a sub-shape. -/
  | save (tags : List String) (frm : Shape)
  /-- shape.FixedTags: constant tag bindings over a sub-shape. -/
  | fixedTags (tags : List (String × Ref)) (onS : Shape)
  /-- shape.Page: skip/limit window; zero limit means unlimited. -/
  | page (frm : Shape) (skip : Int) (limit : Int)
  /-- shape.Unique. -/
  | unique (frm : Shape)
  /-- shape.Materialize. -/
  | materialize (size : Int) (vals : Shape)
  deriving Repr

/-- shape.MaterializeThreshold (default 100). -/
def MaterializeThreshold : Int := 100

/-- Insert-or-replace into an association list, keeping the position of an
existing key and appending new keys, like assignment into a Go map. -/
def alInsert {κ α : Type} [DecidableEq κ] (l : List (κ × α)) (k : κ) (v : α) :
    List (κ × α) :=
  if l.any (fun p => p.1 = k) then
    l.map (fun p => if p.1 = k then (k, v) else p)
  else
    l ++ [(k, v)]

/-- Merge the second association list into the first (second overrides). -/
def alMerge {κ α : Type} [DecidableEq κ] (l1 l2 : List (κ × α)) : List (κ × α) :=
  l2.foldl (fun acc p => alInsert acc p.1 p.2) l1

/-- Lookup in an association list (Go map read). -/
def alLookup {κ α : Type} [DecidableEq κ] (l : List (κ × α)) (k : κ) : Option α :=
  (l.find? (fun p => p.1 = k)).map Prod.snd

end Cayley

namespace Cayley

/-- shape.IsNull: nil shapes and shape.Null are conflated into Shape.null. -/
def Shape.isNull : Shape → Bool
  | .null => true
  | _ => false

/-- shape.One: recognize a static set holding exactly one ref.
Modelled from the spec: the helper One is called from gshape but is not under
src; the spec's quad-fusion rule recognizes a filter that is "a single-ref
Fixed", which is exactly this test. -/
def Shape.one : Shape → Option Ref
  | .fixed [v] => some v
  | _ => none

/-- shape.ClearFixedTags and gshape.clearFixedTags: strip FixedTags members,
collecting their tag maps (tags of later members override earlier ones).
Returns none in the second component when no member is a FixedTags node
(the Go function returns a nil map in that case). -/
def clearFixedTags (arr : List Shape) : List Shape × Option (List (String × Ref)) :=
  arr.foldl
    (fun acc s =>
      match s with
      | .fixedTags t onS => (acc.1 ++ [onS], some (alMerge (acc.2.getD []) t))
      | s => (acc.1 ++ [s], acc.2))
    ([], none)

/-- First loop of Union.Optimize: optimize every member in place.
A Go nil member is skipped there and removed later; here it is conflated with
Null, whose optimization returns null with the change flag set, leaving the
same final shape and flag. -/
def unionMembers (opt : Shape → Option (Shape × Bool)) :
    List Shape → Option (List Shape × Bool)
  | [] => some ([], false)
  | c :: cs =>
    match opt c with
    | none => none
    | some (v, ok) =>
      match unionMembers opt cs with
      | none => none
      | some (rest, opt2) => some ((if ok then v else c) :: rest, ok || opt2)

/-- Second loop of Union.Optimize (part_010): remove Null members in place.
The Go loop does not step the index back after a removal, so the element that
slides into a removed slot is never inspected (Union[Null, Null, X] keeps its
second Null). -/
def removeNullsGo (arr : List Shape) (i : Nat) (changed : Bool) : List Shape × Bool :=
  if h : i < arr.length then
    if (arr.get ⟨i, h⟩).isNull then
      removeNullsGo (arr.eraseIdx i) (i + 1) true
    else
      removeNullsGo arr (i + 1) changed
  else (arr, changed)
  termination_by arr.length - i
  decreasing_by
    all_goals simp [List.length_eraseIdx, h]
    all_goals omega

/-- The null-removal pass of Union.Optimize (the flag: a member was removed). -/
def removeNulls (l : List Shape) : List Shape × Bool := removeNullsGo l 0 false

/-- Union.Optimize under the default (nil) optimizer. -/
def unionOptimize (opt : Shape → Option (Shape × Bool)) (l : List Shape) :
    Option (Shape × Bool) :=
  match unionMembers opt l with
  | none => none
  | some (l1, opt1) =>
    match clearFixedTags l1 with
    | (arr, some t) =>
      match opt (.fixedTags t (.union arr)) with
      | none => none
      | some (ns, _) => some (ns, true)
    | (_, none) =>
      let rem := removeNulls l1
      match rem.1 with
      | [] => some (.null, true)
      | [x] => some (x, true)
      | l2 => some (.union l2, opt1 || rem.2)

/-- Result of a member loop that can collapse the whole node to an empty set. -/
inductive MembersRes where
  | toNull
  | ok (l : List Shape) (changed : Bool)

/-- First loop of Intersect.Optimize: optimize members, collapsing to the
empty set as soon as a member is (or optimizes to) null. -/
def intersectMembers (opt : Shape → Option (Shape × Bool)) :
    List Shape → Option MembersRes
  | [] => some (.ok [] false)
  | c :: cs =>
    if c.isNull then some .toNull
    else
      match opt c with
      | none => none
      | some (v, ok) =>
        if ok && v.isNull then some .toNull
        else
          match intersectMembers opt cs with
          | none => none
          | some .toNull => some .toNull
          | some (.ok rest opt2) => some (.ok ((if ok then v else c) :: rest) (ok || opt2))

/-- Accumulator state of the second loop of Intersect.Optimize. -/
structure IPass where
  rest : List Shape
  fixedSets : List (List Ref)
  tags : List String
  qacc : Option (List (Direction × Shape))
  onlyAll : Bool
  changed : Bool
  deriving Repr

mutual
/-- Weight of a shape, used as termination measure for the loop that splices
nested intersections and unwraps Save nodes. -/
def Shape.weight : Shape → Nat
  | .null => 1
  | .allNodes => 1
  | .fixed _ => 1
  | .union subs => 1 + shapeListWeight subs
  | .intersect subs => 1 + shapeListWeight subs
  | .quads fs => 1 + filterListWeight fs
  | .nodesFrom _ q => 1 + q.weight
  | .quadsAction _ _ _ _ => 1
  | .save _ f => 1 + f.weight
  | .fixedTags _ o => 1 + o.weight
  | .page f _ _ => 1 + f.weight
  | .unique f => 1 + f.weight
  | .materialize _ v => 1 + v.weight

/-- Weight of a member list. -/
def shapeListWeight : List Shape → Nat
  | [] => 0
  | s :: rest => s.weight + shapeListWeight rest

/-- Weight of a quad filter list. -/
def filterListWeight : List (Direction × Shape) → Nat
  | [] => 0
  | f :: rest => f.2.weight + filterListWeight rest
end

theorem shapeListWeight_append (l1 l2 : List Shape) :
    shapeListWeight (l1 ++ l2) = shapeListWeight l1 + shapeListWeight l2 := by
  induction l1 with
  | nil => simp [shapeListWeight]
  | cons a as ih => simp [shapeListWeight, ih]; omega

theorem Shape.weight_pos (s : Shape) : 0 < s.weight := by
  cases s <;> simp [Shape.weight]

/-- Second loop of Intersect.Optimize: drop AllNodes members, merge all Quads
members, collect Fixed sets, splice nested Intersects at the end of the work
list, and hoist tags of Save members (whose contents are re-examined), exactly
as the Go loop does with its index juggling. -/
def ipass : List Shape → IPass → IPass
  | [], st => st
  | c :: cs, st =>
    match c with
    | .allNodes => ipass cs { st with changed := true }
    | .quads q =>
      ipass cs { st with
        qacc := some ((st.qacc.getD []) ++ q),
        changed := st.changed || st.qacc.isSome,
        onlyAll := false }
    | .fixed f =>
      ipass cs { st with fixedSets := st.fixedSets ++ [f], changed := true, onlyAll := false }
    | .intersect inner => ipass (cs ++ inner) { st with changed := true, onlyAll := false }
    | .save tg fr => ipass (fr :: cs) { st with tags := st.tags ++ tg, changed := true, onlyAll := false }
    | c => ipass cs { st with rest := st.rest ++ [c], onlyAll := false }
  termination_by l _ => shapeListWeight l
  decreasing_by
    all_goals simp [shapeListWeight, shapeListWeight_append, Shape.weight]
    all_goals first
      | omega
      | (have hcw : 0 < c.weight := Shape.weight_pos c
         omega)

/-- Merge the collected quad filters (Quads.Optimize call inside
Intersect.Optimize) and append the result to the member list. -/
def intersectQuads (opt : Shape → Option (Shape × Bool)) (st : IPass) :
    Option MembersRes :=
  match st.qacc with
  | none => some (.ok st.rest st.changed)
  | some q =>
    match opt (.quads q) with
    | none => none
    | some (nq, qopt) =>
      if nq.isNull then some .toNull
      else some (.ok (st.rest ++ [nq]) (st.changed || qopt))

/-- Modelled from the spec: the helper IntersectShapes (called by the Fixed
push-down into NodesFrom, part_009 line 199) is not under src. The spec says
the optimizer will "intersect into an existing filter on that direction", so
the Fixed set is combined with the existing filter values into an Intersect
node (an Intersect argument is spliced in, AllNodes is absorbed). -/
def intersectShapes (s1 s2 : Shape) : Shape :=
  match s1 with
  | .allNodes => s2
  | .intersect l =>
    match s2 with
    | .intersect l2 => .intersect (l ++ l2)
    | s2 => .intersect (l ++ [s2])
  | s1 => .intersect [s1, s2]

/-- Final return of Intersect.Optimize once the member list is settled. -/
def intersectTail (s : List Shape) (changed : Bool) : Shape × Bool :=
  match s with
  | [] => (.null, true)
  | [x] => (x, true)
  | s => (.intersect s, changed)

/-- Fixed handling of Intersect.Optimize: push a single one-element Fixed
into a lone QuadsAction or NodesFrom member, otherwise place the collected
Fixed sets first. -/
def intersectFixed (opt : Shape → Option (Shape × Bool)) (fixedSets : List (List Ref))
    (s : List Shape) (changed : Bool) : Option (Shape × Bool) :=
  match fixedSets with
  | [] => some (intersectTail s changed)
  | [fix] =>
    match s with
    | [.quadsAction sz res sv fl] =>
      match fix with
      | [fv] =>
        match alLookup fl res with
        | some v =>
          if v ≠ fv then some (.null, true)
          else some (.quadsAction sz res sv fl, true)
        | none =>
          match opt (.quadsAction 0 res sv (alInsert fl res fv)) with
          | none => none
          | some (ns, _) => some (ns, true)
      | _ => some (intersectTail (.fixed fix :: s) changed)
    | [.nodesFrom dir (.quads sq)] =>
      match sq.findIdx? (fun f => f.1 = dir) with
      | none => some (.nodesFrom dir (.quads ((dir, .fixed fix) :: sq)), true)
      | some qi =>
        match sq.get? qi with
        | some qf =>
          some (.nodesFrom dir (.quads (sq.set qi (qf.1, intersectShapes (.fixed fix) qf.2))), true)
        | none => some (.nodesFrom dir (.quads sq), true)
    | _ => some (intersectTail (.fixed fix :: s) changed)
  | _ => some (intersectTail ((fixedSets.map Shape.fixed) ++ s) changed)

/-- Deferred Save hoisting of Intersect.Optimize: wrap the result into a Save
with the collected tags and optimize the wrapper (skipped on a null result). -/
def intersectWrap (opt : Shape → Option (Shape × Bool)) (tags : List String)
    (res : Shape × Bool) : Option (Shape × Bool) :=
  if tags.isEmpty then some res
  else if res.1.isNull then some res
  else
    match opt (.save tags res.1) with
    | none => none
    | some (ns, topt) => some (ns, res.2 || topt)

/-- Intersect.Optimize (part_009 lines 44-224) under the default optimizer. -/
def intersectOptimize (opt : Shape → Option (Shape × Bool)) (l : List Shape) :
    Option (Shape × Bool) :=
  if l.isEmpty then some (.null, true)
  else
    match intersectMembers opt l with
    | none => none
    | some .toNull => some (.null, true)
    | some (.ok l1 opt1) =>
      match clearFixedTags l1 with
      | (arr, some t) =>
        match opt (.fixedTags t (.intersect arr)) with
        | none => none
        | some (ns, _) => some (ns, true)
      | (_, none) =>
        let st := ipass l1 ⟨[], [], [], none, true, opt1⟩
        if st.onlyAll then some (.allNodes, true)
        else
          match intersectQuads opt st with
          | none => none
          | some .toNull => some (.null, true)
          | some (.ok s2 ch2) =>
            match intersectFixed opt st.fixedSets s2 ch2 with
            | none => none
            | some res => intersectWrap opt st.tags res

/-- Result of the Quads.Optimize filter loop. -/
inductive QRes where
  | toNull
  | ok (l : List (Direction × Shape)) (changed : Bool)

/-- Exchange two positions of a list (identity when out of range). -/
def listSwap {α : Type} (l : List α) (a b : Nat) : List α :=
  match l.get? a, l.get? b with
  | some x, some y => (l.set a y).set b x
  | _, _ => l

/-- Loop of Quads.Optimize: optimize every filter value, collapse to the
empty set when one optimizes away, and swap Fixed-valued filters towards the
front (sw is the write position of the next Fixed; the swap is not stable). -/
def quadsLoop (opt : Shape → Option (Shape × Bool)) :
    Nat → List (Direction × Shape) → Nat → Nat → Bool → Option QRes
  | 0, l, _, _, changed => some (.ok l changed)
  | k + 1, l, i, sw, changed =>
    match l.get? i with
    | none => some (.ok l changed)
    | some f =>
      match opt f.2 with
      | none => none
      | some (v, ok) =>
        if v.isNull then some .toNull
        else
          let l1 := if ok then l.set i (f.1, v) else l
          match (l1.get? i).map Prod.snd with
          | some (.fixed _) => quadsLoop opt k (listSwap l1 sw i) (i + 1) (sw + 1) true
          | _ => quadsLoop opt k l1 (i + 1) sw (changed || ok)

/-- Quads.Optimize under the default optimizer. -/
def quadsOptimize (opt : Shape → Option (Shape × Bool))
    (l : List (Direction × Shape)) : Option (Shape × Bool) :=
  match quadsLoop opt l.length l 0 0 false with
  | none => none
  | some .toNull => some (.null, true)
  | some (.ok l1 changed) => some (.quads l1, changed)

/-- FixedTags collection loop of NodesFrom.Optimize: strip FixedTags filter
values, merging their tags (later filters override). -/
def stripFilterTags (q : List (Direction × Shape)) :
    List (Direction × Shape) × Option (List (String × Ref)) :=
  q.foldl
    (fun acc f =>
      match f.2 with
      | .fixedTags t onS => (acc.1 ++ [(f.1, onS)], some (alMerge (acc.2.getD []) t))
      | _ => (acc.1 ++ [f], acc.2))
    ([], none)

/-- Result of the filter recognition loop of NodesFrom.Optimize. -/
inductive RecogRes where
  | dupDir
  | done (filt : List (Direction × Ref)) (saveTags : List (Direction × List String)) (n : Nat)

/-- Recognition loop of NodesFrom.Optimize: classify every filter as either a
single fixed ref or a Save over AllNodes, bailing out ("just to be safe")
when one direction carries two fixed filters. -/
def recogLoop : List (Direction × Shape) → List (Direction × Ref) →
    List (Direction × List String) → Nat → RecogRes
  | [], filt, sv, n => .done filt sv n
  | f :: fs, filt, sv, n =>
    match f.2.one with
    | some v =>
      if (alLookup filt f.1).isSome then .dupDir
      else recogLoop fs (alInsert filt f.1 v) sv (n + 1)
    | none =>
      match f.2 with
      | .save tg .allNodes =>
        recogLoop fs filt (alInsert sv f.1 ((alLookup sv f.1).getD [] ++ tg)) (n + 1)
      | _ => recogLoop fs filt sv n

/-- Rules of NodesFrom.Optimize applying after the quad set was optimized:
FixedTags hoisting and fusion of fully recognized filters into QuadsAction. -/
def nodesFromQuadsTail (opt : Shape → Option (Shape × Bool)) (dir : Direction)
    (ql : List (Direction × Shape)) (changed : Bool) : Option (Shape × Bool) :=
  match stripFilterTags ql with
  | (qs, some t) =>
    match opt (.nodesFrom dir (.quads qs)) with
    | none => none
    | some (ns, _) => some (.fixedTags t ns, true)
  | (_, none) =>
    match recogLoop ql [] [] 0 with
    | .dupDir => some (.nodesFrom dir (.quads ql), changed)
    | .done filt sv n =>
      if n = ql.length then
        match opt (.quadsAction 0 dir sv filt) with
        | none => none
        | some (ns, _) => some (ns, true)
      else some (.nodesFrom dir (.quads ql), changed)

/-- NodesFrom.Optimize over an optimized Quads value: the HasA-LinksTo
elimination applies first to a single filter on the same direction. -/
def nodesFromQuads (opt : Shape → Option (Shape × Bool)) (dir : Direction)
    (ql : List (Direction × Shape)) (changed : Bool) : Option (Shape × Bool) :=
  match ql with
  | [f] =>
    if f.1 = dir then some (f.2, true)
    else nodesFromQuadsTail opt dir [f] changed
  | _ => nodesFromQuadsTail opt dir ql changed

/-- NodesFrom.Optimize under the default optimizer. -/
def nodesFromOptimize (opt : Shape → Option (Shape × Bool)) (dir : Direction)
    (q : Shape) : Option (Shape × Bool) :=
  if q.isNull then some (.null, true)
  else
    match opt q with
    | none => none
    | some (q1, opt1) =>
      match q1 with
      | .quads ql => nodesFromQuads opt dir ql opt1
      | q1 => some (.nodesFrom dir q1, opt1)

/-- Save.Optimize under the default optimizer. -/
def saveOptimize (opt : Shape → Option (Shape × Bool)) (tags : List String)
    (frm : Shape) : Option (Shape × Bool) :=
  if frm.isNull then some (.null, true)
  else
    match opt frm with
    | none => none
    | some (f1, opt1) =>
      if tags.isEmpty then some (f1, true)
      else some (.save tags f1, opt1)

/-- FixedTags.Optimize under the default optimizer (merging nested FixedTags,
the inner tags overriding the outer ones on collision). -/
def fixedTagsOptimize (opt : Shape → Option (Shape × Bool))
    (tags : List (String × Ref)) (onS : Shape) : Option (Shape × Bool) :=
  if onS.isNull then some (.null, true)
  else
    match opt onS with
    | none => none
    | some (o1, opt1) =>
      if tags.isEmpty then some (o1, true)
      else
        match o1 with
        | .fixedTags t2 o2 => some (.fixedTags (alMerge tags t2) o2, true)
        | o1 => some (.fixedTags tags o1, opt1)

/-- Wrapping two's-complement int64 arithmetic: reduce an Int into
[-2^63, 2^63), as Go's int64 addition and subtraction wrap on overflow. -/
def wrap64 (x : Int) : Int := (x + 2 ^ 63) % 2 ^ 64 - 2 ^ 63

/-- Page.ApplyPage: compose the receiver (inner) window with an outer one;
none encodes the nil return (the window is empty). The skip addition and the
limit subtraction are Go int64 operations and wrap on overflow. -/
def pageApply (frm : Shape) (skip2 limit2 skip1 limit1 : Int) :
    Option (Shape × Int × Int) :=
  let sk := wrap64 (skip2 + skip1)
  if limit2 > 0 then
    let lim := wrap64 (limit2 - skip1)
    if lim ≤ 0 then none
    else
      let lim2 := if limit1 > 0 ∧ lim > limit1 then limit1 else lim
      some (frm, sk, lim2)
  else some (frm, sk, limit1)

/-- Page.Optimize under the default optimizer. -/
def pageOptimize (opt : Shape → Option (Shape × Bool)) (frm : Shape)
    (skip limit : Int) : Option (Shape × Bool) :=
  if frm.isNull then some (.null, true)
  else
    match opt frm with
    | none => none
    | some (f1, opt1) =>
      if skip ≤ 0 ∧ limit ≤ 0 then some (f1, true)
      else
        match f1 with
        | .page f2 sk2 l2 =>
          match pageApply f2 sk2 l2 skip limit with
          | none => some (.null, true)
          | some (f3, sk3, l3) => some (.page f3 sk3 l3, true)
        | f1 => some (.page f1 skip limit, opt1)

/-- Unique.Optimize under the default optimizer. -/
def uniqueOptimize (opt : Shape → Option (Shape × Bool)) (frm : Shape) :
    Option (Shape × Bool) :=
  if frm.isNull then some (.null, true)
  else
    match opt frm with
    | none => none
    | some (f1, opt1) =>
      if f1.isNull then some (.null, true)
      else some (.unique f1, opt1)

/-- Materialize.Optimize under the default optimizer (no re-check of null
after the child is optimized, as in the source). -/
def materializeOptimize (opt : Shape → Option (Shape × Bool)) (sz : Int)
    (vals : Shape) : Option (Shape × Bool) :=
  if vals.isNull then some (.null, true)
  else
    match opt vals with
    | none => none
    | some (v1, opt1) => some (.materialize sz v1, opt1)

/-- One layer of the generic optimizer (each shape node's Optimize method with
a nil store optimizer), parameterized by the optimizer used for recursive
calls. -/
def optimizeStep (opt : Shape → Option (Shape × Bool)) : Shape → Option (Shape × Bool)
  | .null => some (.null, true)
  | .allNodes => some (.allNodes, false)
  | .fixed refs => if refs.isEmpty then some (.null, true) else some (.fixed refs, false)
  | .union l => unionOptimize opt l
  | .intersect l => intersectOptimize opt l
  | .quads l => quadsOptimize opt l
  | .nodesFrom d q => nodesFromOptimize opt d q
  | .quadsAction sz r sv fl => some (.quadsAction sz r sv fl, false)
  | .save tags f => saveOptimize opt tags f
  | .fixedTags tags onS => fixedTagsOptimize opt tags onS
  | .page f sk lim => pageOptimize opt f sk lim
  | .unique f => uniqueOptimize opt f
  | .materialize sz v => materializeOptimize opt sz v

/-- The generic optimizer pass (shape.Optimize with a nil store optimizer),
with an explicit recursion-depth budget. optimizeF n s = some r means the Go
call returns r within nesting depth n; the result never depends on which
sufficient budget is chosen. -/
def optimizeF : Nat → Shape → Option (Shape × Bool)
  | 0, _ => none
  | n + 1, s => optimizeStep (optimizeF n) s

end Cayley

namespace Cayley

theorem shapeListWeight_mem_le {x : Shape} {l : List Shape} (h : x ∈ l) :
    x.weight ≤ shapeListWeight l := by
  induction l with
  | nil => cases h
  | cons a as ih =>
    rcases List.mem_cons.mp h with rfl | h2
    · simp [shapeListWeight]
    · have := ih h2
      simp [shapeListWeight]; omega

/-- The iterator tree produced by BuildIterator on store-free shapes.
The And and Or iterators are not under src (they are only referenced); their
semantics below follow the spec: And pulls from its first (primary)
sub-iterator and checks Contains on the others, Or concatenates without
deduplication. Fixed, Skip and Unique are from src. -/
inductive It where
  | nullIt
  | errorIt (msg : String)
  | fixedIt (vals : List Ref)
  | andIt (subs : List It)
  | orIt (subs : List It)
  | skipIt (skip : Int) (sub : It)
  | limitIt (limit : Int) (sub : It)
  | saveIt (sub : It)
  | uniqueIt (sub : It)
  | materializeIt (sub : It)
  deriving Repr

mutual
/-- BuildIterator for the embedded shapes (part_010 plus gshape). Shapes that
require a bound quad store return the gshape error iterator
(errNoQsIterator: "query should be bound to quad store"). -/
def Shape.buildIterator : Shape → It
  | .null => .nullIt
  | .allNodes => .errorIt "query should be bound to quad store"
  | .fixed refs => .fixedIt refs
  | .union [] => .nullIt
  | .union [x] => x.buildIterator
  | .union l => .orIt (buildIts l)
  | .intersect [] => .nullIt
  | .intersect [x] => x.buildIterator
  | .intersect l => .andIt (buildIts l)
  | .quads _ => .errorIt "query should be bound to quad store"
  | .nodesFrom _ _ => .errorIt "query should be bound to quad store"
  | .quadsAction _ _ _ _ => .errorIt "query should be bound to quad store"
  | .save tags f =>
    if f.isNull then .nullIt
    else if tags.isEmpty then f.buildIterator
    else .saveIt f.buildIterator
  | .fixedTags _ onS => if onS.isNull then .nullIt else .saveIt onS.buildIterator
  | .page f sk lim =>
    if f.isNull then .nullIt
    else
      let it := f.buildIterator
      let it2 := if sk > 0 then It.skipIt sk it else it
      if lim > 0 then It.limitIt lim it2 else it2
  | .unique f => if f.isNull then .nullIt else .uniqueIt f.buildIterator
  | .materialize _ v => if v.isNull then .nullIt else .materializeIt v.buildIterator
  termination_by s => (s.weight, 0)
  decreasing_by
    all_goals simp [Shape.weight, shapeListWeight, Prod.lex_iff]
    all_goals omega

/-- Iterators of a member list. -/
def buildIts : List Shape → List It
  | [] => []
  | s :: rest => s.buildIterator :: buildIts rest
  termination_by l => (shapeListWeight l, 1 + l.length)
  decreasing_by
    all_goals simp [Shape.weight, shapeListWeight, Prod.lex_iff]
    all_goals omega
end

mutual
/-- Weight of an iterator tree, for termination of drain and contains. -/
def It.weight : It → Nat
  | .nullIt => 1
  | .errorIt _ => 1
  | .fixedIt _ => 1
  | .andIt subs => 1 + itListWeight subs
  | .orIt subs => 1 + itListWeight subs
  | .skipIt _ sub => 1 + sub.weight
  | .limitIt _ sub => 1 + sub.weight
  | .saveIt sub => 1 + sub.weight
  | .uniqueIt sub => 1 + sub.weight
  | .materializeIt sub => 1 + sub.weight

/-- Weight of an iterator list. -/
def itListWeight : List It → Nat
  | [] => 0
  | s :: rest => s.weight + itListWeight rest
end

/-- Unique.Next: keep the first occurrence of every key. -/
def uniqueDrain : List Ref → List Ref → List Ref
  | [], _ => []
  | x :: xs, seen =>
    if seen.contains x then uniqueDrain xs seen
    else x :: uniqueDrain xs (x :: seen)

mutual
/-- Primary results of a full Next drain of an iterator. And filters its
primary sub-iterator through Contains of the others (spec-modelled, the And
iterator is not under src); Skip drops, Limit caps, Unique deduplicates
keeping first occurrences, Or concatenates. -/
def It.drain : It → List Ref
  | .nullIt => []
  | .errorIt _ => []
  | .fixedIt vals => vals
  | .andIt [] => []
  | .andIt (p :: others) => p.drain.filter (fun x => itContainsAll others x)
  | .orIt subs => itDrainAll subs
  | .skipIt sk sub => sub.drain.drop sk.toNat
  | .limitIt lim sub => sub.drain.take lim.toNat
  | .saveIt sub => sub.drain
  | .uniqueIt sub => uniqueDrain sub.drain []
  | .materializeIt sub => sub.drain
  termination_by it => (it.weight, 0)
  decreasing_by
    all_goals simp [It.weight, itListWeight, Prod.lex_iff]
    all_goals omega

/-- Contains of an iterator. The Skip iterator delegates to its sub-iterator
without skipping anything, exactly as the source does (its FIXME comment
acknowledges this); Fixed scans its values by key. -/
def It.contains : It → Ref → Bool
  | .nullIt, _ => false
  | .errorIt _, _ => false
  | .fixedIt vals, v => vals.contains v
  | .andIt subs, v => itContainsAll subs v
  | .orIt subs, v => itContainsAny subs v
  | .skipIt _ sub, v => sub.contains v
  | .limitIt _ sub, v => sub.contains v
  | .saveIt sub, v => sub.contains v
  | .uniqueIt sub, v => sub.contains v
  | .materializeIt sub, v => sub.drain.contains v
  termination_by it _ => (it.weight, 0)
  decreasing_by
    all_goals simp [It.weight, itListWeight, Prod.lex_iff]
    all_goals omega

/-- Containment in every iterator of a list. -/
def itContainsAll : List It → Ref → Bool
  | [], _ => true
  | s :: rest, v => s.contains v && itContainsAll rest v
  termination_by l _ => (itListWeight l, 1 + l.length)
  decreasing_by
    all_goals simp [It.weight, itListWeight, Prod.lex_iff]
    all_goals omega

/-- Containment in some iterator of a list. -/
def itContainsAny : List It → Ref → Bool
  | [], _ => false
  | s :: rest, v => s.contains v || itContainsAny rest v
  termination_by l _ => (itListWeight l, 1 + l.length)
  decreasing_by
    all_goals simp [It.weight, itListWeight, Prod.lex_iff]
    all_goals omega

/-- Concatenated drains of a list of iterators. -/
def itDrainAll : List It → List Ref
  | [] => []
  | s :: rest => s.drain ++ itDrainAll rest
  termination_by l => (itListWeight l, 1 + l.length)
  decreasing_by
    all_goals simp [It.weight, itListWeight, Prod.lex_iff]
    all_goals omega
end

end Cayley

namespace Cayley

/-- shape.InternalQuad: a quad of refs. -/
structure InternalQuad where
  subj : Ref
  pred : Ref
  obj : Ref
  lab : Ref
  deriving DecidableEq, Repr

/-- InternalQuad.Get (the Any direction yields the nil ref, modelled as 0). -/
def InternalQuad.get (q : InternalQuad) : Direction → Ref
  | .subject => q.subj
  | .predicate => q.pred
  | .object => q.obj
  | .label => q.lab
  | .any => 0

/-- shape.QuadIndexer: SizeOfIndex returns some size exactly when the size is
exact; LookupQuadIndex returns the unique matching quad when it exists. -/
structure QuadIndexerCap where
  sizeOfIndex : List (Direction × Ref) → Option Int
  lookupQuadIndex : List (Direction × Ref) → Option InternalQuad

/-- A store-specific shape optimizer (shape.Optimizer restricted to node
shapes) together with its optional QuadIndexer capability. -/
structure StoreOptimizer where
  optimizeShape : Shape → Shape × Bool
  quadIndexer : Option QuadIndexerCap

/-- QuadsAction.simplify: rebuild the equivalent NodesFrom over Quads
(filters from the Filter map first, then Save-over-AllNodes filters). -/
def quadsActionSimplify (res : Direction) (sv : List (Direction × List String))
    (fl : List (Direction × Ref)) : Shape :=
  .nodesFrom res (.quads
    ((fl.map (fun p => (p.1, Shape.fixed [p.2]))) ++
     (sv.map (fun p => (p.1, Shape.save p.2 .allNodes)))))

/-- Tags baked from the Save map and a looked-up quad
(ft.Tags[t] = q.Get(d) for every direction d and tag t). -/
def svBakedTags (q : InternalQuad) (sv : List (Direction × List String)) :
    List (String × Ref) :=
  sv.foldl (fun acc p => p.2.foldl (fun a t => alInsert a t (q.get p.1)) acc) []

/-- QuadsAction.Optimize (query_shapes.go lines 420-468). With a store
optimizer present, the node and then its Simplify form are offered to it;
otherwise the function falls through to a Go type assertion of the (then nil)
optimizer interface against shape.QuadIndexer, which always fails, making the
quad-index logic that follows unreachable. -/
def quadsActionOptimizeR (r : Option StoreOptimizer) (size : Int)
    (res : Direction) (sv : List (Direction × List String))
    (fl : List (Direction × Ref)) : Shape × Bool :=
  match r with
  | some ro =>
    match ro.optimizeShape (.quadsAction size res sv fl) with
    | (sn, true) => (sn, true)
    | _ =>
      match ro.optimizeShape (quadsActionSimplify res sv fl) with
      | (sn, true) => (sn, true)
      | _ => (.quadsAction size res sv fl, false)
  | none => (.quadsAction size res sv fl, false)

/-- The quad-index optimization written inside QuadsAction.Optimize
(query_shapes.go lines 430-467), transcribed as it would behave if it were
reachable: populate Size from SizeOfIndex when exact, collapse to Null at
size 0, bake a Fixed ref (wrapped in FixedTags covering the Save map) at
size 1 when the quad can be looked up, and wrap in Materialize below
MaterializeThreshold. -/
def quadsActionIndexOpt (ind : QuadIndexerCap) (size : Int) (res : Direction)
    (sv : List (Direction × List String)) (fl : List (Direction × Ref)) :
    Shape × Bool :=
  if size > 0 then (.quadsAction size res sv fl, false)
  else
    match ind.sizeOfIndex fl with
    | none => (.quadsAction size res sv fl, false)
    | some sz =>
      if sz = 0 then (.null, true)
      else
        let fallThrough :=
          if sz < MaterializeThreshold then
            (Shape.materialize sz (.quadsAction sz res sv fl), true)
          else (Shape.quadsAction sz res sv fl, true)
        if sz = 1 then
          match ind.lookupQuadIndex fl with
          | some q =>
            let fx := Shape.fixed [q.get res]
            if sv.isEmpty then (fx, true)
            else (.fixedTags (svBakedTags q sv) fx, true)
          | none => fallThrough
        else fallThrough

end Cayley

namespace Cayley

/-- NewRecursive: a zero max depth selects DefaultMaxRecursiveSteps (50). -/
def newRecursiveMaxDepth (maxDepth : Int) : Int :=
  if maxDepth = 0 then 50 else maxDepth

/-- Mutable state of the Recursive iterator (graph/iterator/recursive.go),
restricted to the fields driving emission and termination: current depth, the
seen map (key to the recorded depth and base-recursive ancestor), the cache
of refs discovered at the current depth, and the remaining rows of the
current nextIt drain (each row is the primary ref together with its
__base_recursive tag). The depth-0 drain of the base iterator fills
depthCache before the loop runs, so the initial state carries the base rows
in depthCache, an empty seen map and an exhausted (Null) nextIt. -/
structure RecState where
  depth : Nat
  seen : List (Ref × (Nat × Ref))
  depthCache : List Ref
  nextIt : List (Ref × Ref)
  deriving Repr

/-- Outcome of one iteration of the loop inside Recursive.Next. -/
inductive RecStepOut where
  | emit (v : Ref) (st : RecState)
  | cont (st : RecState)
  | done

/-- One iteration of the loop in Recursive.Next. morphism maps a frontier
(the refs of the Fixed iterator tagged __base_recursive) to the rows drained
from the stepped iterator. When nextIt is exhausted the loop either stops
(max depth reached, or nothing new was found at this depth) or advances one
depth, rebuilding nextIt from the frontier; otherwise the next row is emitted
if its ref was never seen, and skipped otherwise. -/
def recStep (morphism : List Ref → List (Ref × Ref)) (maxDepth : Int)
    (st : RecState) : RecStepOut :=
  match st.nextIt with
  | [] =>
    if maxDepth > 0 ∧ (st.depth : Int) ≥ maxDepth then .done
    else if st.depthCache.isEmpty then .done
    else .cont { st with
      depth := st.depth + 1,
      depthCache := [],
      nextIt := morphism st.depthCache }
  | (val, base) :: rest =>
    if (alLookup st.seen val).isSome then .cont { st with nextIt := rest }
    else .emit val { st with
      seen := st.seen ++ [(val, (st.depth, base))],
      depthCache := st.depthCache ++ [val],
      nextIt := rest }

/-- A full drain of the Recursive iterator: repeated Next calls collecting
every emitted primary ref, within a step budget (none means the budget was
exhausted before the iterator terminated). -/
def recRun (morphism : List Ref → List (Ref × Ref)) (maxDepth : Int) :
    Nat → RecState → Option (List Ref)
  | 0, _ => none
  | fuel + 1, st =>
    match recStep morphism maxDepth st with
    | .done => some []
    | .cont st2 => recRun morphism maxDepth fuel st2
    | .emit v st2 => (recRun morphism maxDepth fuel st2).map (v :: ·)

/-- A minimal model of quad.Value: an Int atom or another (string) atom.
Interface equality in Go compares dynamic type and value, i.e. structural
equality here. -/
inductive QVal where
  | int (i : Int)
  | str (s : String)
  deriving DecidableEq, Repr

/-- The sub-iterator consumed by the Count iterator: its advertised size with
the exactness flag, and the drained rows (each primary result paired with the
number of its additional NextPath rows). -/
structure GenIt where
  sizeVal : Int
  exactSize : Bool
  results : List (QVal × Nat)
  deriving Repr

/-- The count obtained by draining: one per Next plus one per NextPath. -/
def GenIt.countAll (g : GenIt) : Int :=
  (g.results.map (fun p => 1 + (p.2 : Int))).sum

/-- Mutable state of the Count iterator: the done flag and current result. -/
structure CountState where
  done : Bool
  result : Option QVal
  deriving DecidableEq, Repr

/-- Count.Next: on the first call, use the sub-iterator size when exact,
otherwise drain and count; the single result is that count as an Int. -/
def countNext (g : GenIt) (st : CountState) : Bool × CountState :=
  if st.done then (false, st)
  else
    let size := if g.exactSize then g.sizeVal else g.countAll
    (true, { done := true, result := some (.int size) })

/-- Count.Contains: run Next if not yet done, then compare against result. -/
def countContains (g : GenIt) (st : CountState) (v : QVal) : Bool × CountState :=
  let st2 := if st.done then st else (countNext g st).2
  (decide (some v = st2.result), st2)

/-- The cardinality Count reports for its sub-iterator. -/
def GenIt.cardinality (g : GenIt) : Int :=
  if g.exactSize then g.sizeVal else g.countAll

/-- State of iteratorShape (graph/path/morphism_apply_functions.go): the
stored prebuilt iterator (dropped after the first build) and the sent flag.
The iterator itself is abstract. -/
structure IterShape (ι : Type) where
  it : Option ι
  sent : Bool

/-- Result of iteratorShape.BuildIterator. -/
inductive BuildRes (ι : Type) where
  | iter (i : ι)
  | nilIter
  | errIter (msg : String)
  deriving DecidableEq, Repr

/-- iteratorShape.BuildIterator: an error iterator on reuse, otherwise the
stored iterator, clearing the state and marking it sent. -/
def iterShapeBuild {ι : Type} (s : IterShape ι) : BuildRes ι × IterShape ι :=
  if s.sent then (.errIter "iterator already used in query", s)
  else
    (match s.it with
     | some i => (.iter i, { it := none, sent := true })
     | none => (.nilIter, { it := none, sent := true }))

/-- The k-th BuildIterator call on the same iteratorShape (k = 0 is first). -/
def iterShapeBuildSeq {ι : Type} (s : IterShape ι) : Nat → BuildRes ι × IterShape ι
  | 0 => iterShapeBuild s
  | k + 1 => iterShapeBuild (iterShapeBuildSeq s k).2

/-- The sub-iterator of a ValueFilter: its values and the error it reports
through Err once consulted. -/
structure VSub where
  vals : List QVal
  errv : Option String
  deriving DecidableEq, Repr

/-- Mutable state of the ValueFilter iterator: the values not yet consumed by
Next, the recorded error, and the current result. -/
structure VFState where
  remaining : List QVal
  err : Option String
  result : Option QVal
  deriving DecidableEq, Repr

/-- ValueFilter.doFilter folded into the state: a non-nil error from the
predicate is recorded, and the predicate's boolean is returned regardless. -/
def vfRecordErr (e : Option String) (old : Option String) : Option String :=
  match e with
  | some x => some x
  | none => old

/-- Loop of ValueFilter.Next: skip values for which the predicate returns
false (recording any error), stop at the first passing value; on exhaustion
the recorded error is overwritten with the sub-iterator's error. -/
def vfNextLoop (filter : QVal → Bool × Option String) (sub : VSub) :
    List QVal → Option String → Option QVal → Bool × VFState
  | [], _, res => (false, ⟨[], sub.errv, res⟩)
  | v :: rest, e, res =>
    let fe := filter v
    let e2 := vfRecordErr fe.2 e
    if fe.1 then (true, ⟨rest, e2, some v⟩)
    else vfNextLoop filter sub rest e2 res

/-- ValueFilter.Next. -/
def vfNext (filter : QVal → Bool × Option String) (sub : VSub) (st : VFState) :
    Bool × VFState :=
  vfNextLoop filter sub st.remaining st.err st.result

/-- ValueFilter.Contains: false unless the predicate holds (its error is
recorded either way); on a failed sub-iterator containment the sub-iterator's
error is copied into the state. -/
def vfContains (filter : QVal → Bool × Option String) (sub : VSub)
    (st : VFState) (v : QVal) : Bool × VFState :=
  let fe := filter v
  let st2 : VFState := { st with err := vfRecordErr fe.2 st.err }
  if !fe.1 then (false, st2)
  else if sub.vals.contains v then (true, st2)
  else (false, { st2 with err := sub.errv })

/-- ValueFilter.Reset: clear the error and result (the sub-iterator rewinds). -/
def vfReset (sub : VSub) : VFState := ⟨sub.vals, none, none⟩

/-- An element of a shape.Fixed set: either a proper store ref or a raw
quad.Value that was never resolved against the store. -/
inductive RefLike where
  | ref (r : Ref)
  | rawValue (v : QVal)
  deriving DecidableEq, Repr

/-- Whether a Fixed element is a proper store ref. -/
def RefLike.isRef : RefLike → Bool
  | .ref _ => true
  | .rawValue _ => false

/-- Result of Fixed.BuildIterator: a fixed iterator over the set's elements,
or the panic raised on a raw quad.Value. -/
inductive FixedBuildRes where
  | iter (vals : List RefLike)
  | panicked (msg : String)
  deriving DecidableEq, Repr

/-- shape.Fixed.BuildIterator (part_010 lines 182-191): add every element in
order, panicking as soon as one is a raw quad.Value. -/
def fixedBuildIterator (s : List RefLike) : FixedBuildRes :=
  if s.any (fun v => match v with | .rawValue _ => true | _ => false) then
    .panicked "quad value in fixed iterator"
  else .iter s

end Cayley


namespace Cayley

/-- Number of universe refs not yet recorded in the seen map. -/
def unseenCount (U : List Ref) (seen : List (Ref × (Nat × Ref))) : Nat :=
  (U.toFinset.filter (fun r => alLookup seen r = none)).card

/-- Termination measure of the Recursive.Next loop: every iteration strictly
decreases it (B bounds the length of any morphism drain). -/
def recMeasure (U : List Ref) (B : Nat) (st : RecState) : Nat :=
  unseenCount U st.seen * (B + 2) +
    (if st.depthCache = [] then 0 else B + 1) + st.nextIt.length

/-- Invariant of the Recursive.Next loop over a finite universe U: pending
rows hold universe refs, the frontier cache is duplicate-free inside U, and
its refs are already seen (except in the initial state, where it holds the
base drain and nothing was seen). -/
def RecInv (U : List Ref) (st : RecState) : Prop :=
  (∀ p ∈ st.nextIt, p.1 ∈ U) ∧ st.depthCache.Nodup ∧
  (∀ r ∈ st.depthCache, r ∈ U) ∧
  ((∀ r ∈ st.depthCache, (alLookup st.seen r).isSome) ∨
    (st.nextIt = [] ∧ st.seen = []))

/-- Not a FixedTags node (FixedTags.Optimize merges a nested FixedTags child). -/
def Shape.notFixedTags : Shape → Bool
  | .fixedTags _ _ => false
  | _ => true

/-- Not a Page node (Page.Optimize merges a nested Page child). -/
def Shape.notPage : Shape → Bool
  | .page _ _ _ => false
  | _ => true

/-- Constructors the second loop of Intersect.Optimize leaves in place (the
catch-all branch of ipass): neither dropped, merged, collected, spliced nor
unwrapped, and not a quad operator. -/
def Shape.inertMember : Shape → Bool
  | .union _ => true
  | .page _ _ _ => true
  | .unique _ => true
  | .materialize _ _ => true
  | _ => false

mutual
/-- Optimized normal form on the quad-operator-free fragment: the shapes the
generic optimizer emits when no degenerate collapse (to Null) happens inside.
Children are again in normal form and not Null (nor a form the parent node
would merge away), list operators keep at least two members, an intersection
carries its collected non-empty Fixed sets first followed by inert members
only, and windows are non-degenerate with a non-negative skip. -/
def Shape.optNF : Shape → Bool
  | .null => true
  | .allNodes => true
  | .fixed f => !f.isEmpty
  | .union l => decide (2 ≤ l.length) && unionNF l
  | .intersect l => decide (2 ≤ l.length) && intersectNF true l
  | .quads _ => false
  | .nodesFrom _ _ => false
  | .quadsAction _ _ _ _ => false
  | .save tg f => !tg.isEmpty && !f.isNull && f.optNF
  | .fixedTags tg o => !tg.isEmpty && !o.isNull && o.notFixedTags && o.optNF
  | .page f sk lim =>
    !f.isNull && f.notPage && decide (0 ≤ sk) && (decide (0 < sk) || decide (0 < lim)) && f.optNF
  | .unique f => !f.isNull && f.optNF
  | .materialize _ v => !v.isNull && v.optNF

/-- Member condition of a normal-form Union: non-null, non-FixedTags members
in normal form. -/
def unionNF : List Shape → Bool
  | [] => true
  | c :: cs => !c.isNull && c.notFixedTags && c.optNF && unionNF cs

/-- Member condition of a normal-form Intersect: a prefix of non-empty Fixed
sets (while the flag is true) followed by inert members in normal form. -/
def intersectNF : Bool → List Shape → Bool
  | _, [] => true
  | pre, .fixed f :: cs => pre && !f.isEmpty && intersectNF pre cs
  | _, c :: cs => c.inertMember && c.optNF && intersectNF false cs
end

unseal ipass
unseal removeNullsGo


theorem iterShapeBuild_sent {ι : Type} (s : IterShape ι) :
    (iterShapeBuild s).2.sent = true := by
  unfold iterShapeBuild
  by_cases h : s.sent
  · simp [h]
  · simp [h]
    cases s.it <;> simp

theorem iterShapeBuildSeq_sent {ι : Type} (s : IterShape ι) (k : Nat) :
    (iterShapeBuildSeq s k).2.sent = true := by
  cases k with
  | zero => exact iterShapeBuild_sent s
  | succ j => exact iterShapeBuild_sent _

/-- C8: a prebuilt iterator attached via the iterator morphism is one-shot:
the first BuildIterator call on the wrapping shape returns the wrapped
iterator, and every later call returns an error iterator reporting
"iterator already used in query". -/
theorem c8_iterator_shape_one_shot {ι : Type} (i : ι) (k : Nat) (hk : 1 ≤ k) :
    (iterShapeBuildSeq ⟨some i, false⟩ 0).1 = .iter i ∧
    (iterShapeBuildSeq ⟨some i, false⟩ k).1 = .errIter "iterator already used in query" := by
  constructor
  · simp [iterShapeBuildSeq, iterShapeBuild]
  · obtain ⟨j, rfl⟩ : ∃ j, k = j + 1 := ⟨k - 1, by omega⟩
    show (iterShapeBuild (iterShapeBuildSeq ⟨some i, false⟩ j).2).1 = _
    have hs := iterShapeBuildSeq_sent (⟨some i, false⟩ : IterShape ι) j
    unfold iterShapeBuild
    simp [hs]

/-- C8 witness: the first build returns the iterator, the second errors. -/
theorem c8_witness :
    1 ≤ 1 ∧
    (iterShapeBuildSeq (⟨some 7, false⟩ : IterShape Nat) 0).1 = .iter 7 ∧
    (iterShapeBuildSeq (⟨some 7, false⟩ : IterShape Nat) 1).1 =
      .errIter "iterator already used in query" :=
  ⟨le_refl 1, (c8_iterator_shape_one_shot 7 1 (le_refl 1)).1,
    (c8_iterator_shape_one_shot 7 1 (le_refl 1)).2⟩

/-- C7: Count.Contains(v) on a fresh Count iterator is true exactly when v is
the Int holding the sub-iterator's cardinality (its exact size, or the size
counted by draining Next and NextPath); in particular it is false for every
member of the counted set that differs from the count. -/
theorem c7_count_contains (g : GenIt) (v : QVal) :
    (countContains g ⟨false, none⟩ v).1 = decide (v = .int g.cardinality) ∧
    (∀ m ∈ g.results, m.1 ≠ .int g.cardinality →
      (countContains g ⟨false, none⟩ m.1).1 = false) := by
  constructor
  · simp [countContains, countNext, GenIt.cardinality]
  · intro m _ hm
    simp [countContains, countNext, GenIt.cardinality] at *
    exact hm

/-- C7 witness: Count over an exact-size child contains only the count. -/
theorem c7_witness :
    (countContains ⟨2, false, [(.str "b", 0), (.str "d", 0)]⟩ ⟨false, none⟩ (.int 2)).1 = true ∧
    (countContains ⟨2, false, [(.str "b", 0), (.str "d", 0)]⟩ ⟨false, none⟩ (.str "b")).1 = false := by
  constructor
  · have := (c7_count_contains ⟨2, false, [(.str "b", 0), (.str "d", 0)]⟩ (.int 2)).1
    rw [this]; rfl
  · exact (c7_count_contains ⟨2, false, [(.str "b", 0), (.str "d", 0)]⟩ (.str "b")).2
      (.str "b", 0) (by simp) (by simp [GenIt.cardinality, GenIt.countAll])

/-- C10: Fixed.BuildIterator yields a fixed iterator with exactly the set's
elements in order whenever every element is a store ref, and panics with
"quad value in fixed iterator" whenever some element is a raw quad.Value. -/
theorem c10_fixed_build_iterator (s : List RefLike) :
    ((∀ x ∈ s, x.isRef) → fixedBuildIterator s = .iter s) ∧
    (∀ v, RefLike.rawValue v ∈ s →
      fixedBuildIterator s = .panicked "quad value in fixed iterator") := by
  constructor
  · intro h
    unfold fixedBuildIterator
    rw [if_neg]
    simp only [List.any_eq_true, not_exists, not_and]
    intro x hx
    have hr := h x hx
    cases x with
    | ref r => simp
    | rawValue v => simp [RefLike.isRef] at hr
  · intro v hv
    unfold fixedBuildIterator
    rw [if_pos]
    exact List.any_eq_true.mpr ⟨_, hv, rfl⟩

/-- C10 witness: refs build the iterator, a raw value panics. -/
theorem c10_witness :
    fixedBuildIterator [.ref 1, .ref 2] = .iter [.ref 1, .ref 2] ∧
    fixedBuildIterator [.ref 1, .rawValue (.str "x")] =
      .panicked "quad value in fixed iterator" :=
  ⟨(c10_fixed_build_iterator [.ref 1, .ref 2]).1 (by decide),
   (c10_fixed_build_iterator [.ref 1, .rawValue (.str "x")]).2 (.str "x") (by decide)⟩

/-- C3: the claim says optimizing a QuadsAction against a store with the
quad-index capability populates Size, collapses to Null at size 0, and so on.
In the code this logic is dead: QuadsAction.Optimize returns early for every
non-nil optimizer and then type-asserts the nil optimizer against
shape.QuadIndexer, which always fails. Evaluated at a store whose
SizeOfIndex is exactly 0, Optimize returns the node unchanged with no change
reported, while the unreachable quad-index block would collapse it to Null. -/
theorem c3_quadsaction_index_logic_dead :
    quadsActionOptimizeR
        (some { optimizeShape := fun s => (s, false),
                quadIndexer := some { sizeOfIndex := fun _ => some 0,
                                      lookupQuadIndex := fun _ => none } })
        0 .subject [] [] =
      (.quadsAction 0 .subject [] [], false) ∧
    quadsActionIndexOpt
        { sizeOfIndex := fun _ => some 0, lookupQuadIndex := fun _ => none }
        0 .subject [] [] = (.null, true) := by
  exact ⟨rfl, rfl⟩


theorem stable_ne_null {n : Nat} {x : Shape} (h : optimizeF n x = some (x, false)) :
    x ≠ .null := by
  intro he; subst he
  cases n with
  | zero => simp [optimizeF] at h
  | succ m => simp [optimizeF, optimizeStep] at h

theorem stable_isNull_false {n : Nat} {x : Shape}
    (h : optimizeF n x = some (x, false)) : x.isNull = false := by
  cases x <;> first | rfl | exact absurd rfl (stable_ne_null h)

/-- C1: building and draining the optimized shape must yield the same
multiset of primary results as the original. For
S = Intersect(Page(Fixed[1,2], skip 1, no limit), Fixed[1]) the generic
optimizer moves the Fixed member in front of the windowed member; the And
iterator then pulls from Fixed[1] and asks Skip.Contains, which consults its
sub-iterator without skipping anything (the FIXME comment in the source), so
the optimized iterator yields [1] while the original yields nothing. -/
theorem c1_optimize_changes_drain :
    optimizeF 10 (Shape.intersect [.page (.fixed [1, 2]) 1 0, .fixed [1]]) =
      some (.intersect [.fixed [1], .page (.fixed [1, 2]) 1 0], true) ∧
    (Shape.intersect [.page (.fixed [1, 2]) 1 0, .fixed [1]]).buildIterator.drain = [] ∧
    (Shape.intersect [.fixed [1], .page (.fixed [1, 2]) 1 0]).buildIterator.drain = [1] := by
  refine ⟨rfl, ?_, ?_⟩ <;>
    simp [Shape.buildIterator, buildIts, It.drain, It.contains, itContainsAll, Shape.isNull]

/-- C2 counterexample: optimizing Intersect(Fixed[1], Fixed[2]) returns a
structurally identical shape, yet optimizing that result again reports a
change (the Fixed collection always sets the flag), refuting "reports no
further change"; and for Save over an empty Fixed, Save.Optimize does not
re-check Null after the child collapses, so the first pass returns
Save(tags, Null) and the second pass returns Null: even the shape component
of Optimize(Optimize(S)) differs from Optimize(S). -/
theorem c2_counterexample :
    ((optimizeF 5 (Shape.intersect [.fixed [1], .fixed [2]])).bind
        (fun r => optimizeF 5 r.1) =
      some (Shape.intersect [.fixed [1], .fixed [2]], true)) ∧
    (optimizeF 3 (Shape.save ["t"] (.fixed [])) = some (.save ["t"] .null, true) ∧
      optimizeF 3 (Shape.save ["t"] .null) = some (.null, true) ∧
      (Shape.null ≠ .save ["t"] .null)) :=
  ⟨rfl, rfl, rfl, fun h => Shape.noConfusion h⟩

/-- C4 counterexample: with all four window parameters zero (all windows
unbounded and nothing skipped), optimizing the nested Page collapses to the
inner shape itself instead of producing a single Page node over it. -/
theorem c4_counterexample :
    optimizeF 5 (Shape.page (.page (.fixed [1, 2]) 0 0) 0 0) =
      some (.fixed [1, 2], true) ∧
    ∀ sk lim : Int, (Shape.fixed [1, 2]) ≠ .page (.fixed [1, 2]) sk lim :=
  ⟨rfl, fun _ _ h => Shape.noConfusion h⟩

/-- On values representable in int64, the wrap is the identity. -/
theorem wrap64_eq_self {x : Int} (h1 : -(2 ^ 63) ≤ x) (h2 : x < 2 ^ 63) :
    wrap64 x = x := by
  unfold wrap64
  omega

/-- C4 (amended): for non-negative int64 windows whose skips do not overflow
when added (s1 < 2^63, l2 < 2^63, s1+s2 < 2^63; l1 and s2 take part in no
arithmetic) and an inner shape that is neither Null nor a Page and is
unchanged by optimization, optimizing the nested Page produces a single Page
over x with skip s1+s2 and the tighter of the two limits (l2−s1 standing for
l2 when bounded); when l2 is bounded and l2−s1 is not positive the node
collapses to Null. Only when all four parameters are zero does the node
instead collapse to x itself (shown by the counterexample); a window trivial
on one level only still merges as stated. -/
theorem c4_page_merge (x : Shape) (n : Nat) (s1 l1 s2 l2 : Int)
    (hx : optimizeF n x = some (x, false))
    (hxp : ∀ f a b, x ≠ .page f a b)
    (h1 : 0 ≤ s1) (h2 : 0 ≤ l1) (h3 : 0 ≤ s2) (h4 : 0 ≤ l2)
    (hr1 : s1 < 2 ^ 63) (hr4 : l2 < 2 ^ 63) (hov : s1 + s2 < 2 ^ 63)
    (ht : ¬(s1 = 0 ∧ l1 = 0 ∧ s2 = 0 ∧ l2 = 0)) :
    optimizeF (n + 2) (.page (.page x s2 l2) s1 l1) =
      (if 0 < l2 ∧ l2 - s1 ≤ 0 then some (.null, true)
       else some (.page x (s1 + s2)
         (if 0 < l2 then (if 0 < l1 then min (l2 - s1) l1 else l2 - s1) else l1),
         true)) := by
  have hxNull : x.isNull = false := stable_isNull_false hx
  have e2 : optimizeF (n + 2) (Shape.page (.page x s2 l2) s1 l1) =
      pageOptimize (optimizeF (n + 1)) (.page x s2 l2) s1 l1 := rfl
  by_cases hti : s2 = 0 ∧ l2 = 0
  · obtain ⟨rfl, rfl⟩ := hti
    have hto : ¬(s1 ≤ 0 ∧ l1 ≤ 0) := by omega
    have hinner : optimizeF (n + 1) (Shape.page x 0 0) = some (x, true) := by
      have e1 : optimizeF (n + 1) (Shape.page x 0 0) =
          pageOptimize (optimizeF n) x 0 0 := rfl
      rw [e1]
      unfold pageOptimize
      rw [hx]
      simp [hxNull]
    rw [e2]
    unfold pageOptimize
    rw [hinner]
    simp only [Shape.isNull, Bool.false_eq_true, if_false, if_neg hto]
    cases x <;>
      first
        | exact absurd rfl (hxp _ _ _)
        | simp
  · have hci : ¬(s2 ≤ 0 ∧ l2 ≤ 0) := by omega
    have hinner : optimizeF (n + 1) (Shape.page x s2 l2) =
        some (.page x s2 l2, false) := by
      cases x <;>
        first
          | exact absurd rfl (hxp _ _ _)
          | simp_all [optimizeF, optimizeStep, pageOptimize, Shape.isNull]
    rw [e2]
    unfold pageOptimize
    rw [hinner]
    simp only [Shape.isNull, Bool.false_eq_true, if_false]
    by_cases hto : s1 = 0 ∧ l1 = 0
    · obtain ⟨rfl, rfl⟩ := hto
      rw [if_pos (⟨le_refl 0, le_refl 0⟩ : (0 : Int) ≤ 0 ∧ (0 : Int) ≤ 0)]
      have hcond : ¬(0 < l2 ∧ l2 - 0 ≤ 0) := by omega
      rw [if_neg hcond]
      by_cases hl2 : 0 < l2
      · simp [hl2]
      · have hz : l2 = 0 := by omega
        subst hz
        simp
    · have hc1 : ¬(s1 ≤ 0 ∧ l1 ≤ 0) := by omega
      rw [if_neg hc1]
      unfold pageApply
      have hw1 : wrap64 (s2 + s1) = s2 + s1 := wrap64_eq_self (by omega) (by omega)
      have hw1b : wrap64 (s1 + s2) = s1 + s2 := wrap64_eq_self (by omega) (by omega)
      have hw2 : wrap64 (l2 - s1) = l2 - s1 := wrap64_eq_self (by omega) (by omega)
      by_cases hl2 : 0 < l2
      · by_cases hse : l2 - s1 ≤ 0
        · simp [hl2, hse, hw2]
        · by_cases hl1 : 0 < l1
          · by_cases hmin : l2 - s1 > l1
            · simp [hl2, hse, hl1, hmin, hw1, hw1b, hw2,
                min_eq_right (by omega : l1 ≤ l2 - s1), Int.add_comm s2 s1]
            · simp [hl2, hse, hl1, hmin, hw1, hw1b, hw2,
                min_eq_left (by omega : l2 - s1 ≤ l1), Int.add_comm s2 s1]
          · have hno : ¬(l1 > 0 ∧ l2 - s1 > l1) := by omega
            simp [hl2, hse, hl1, hno, hw1, hw1b, hw2, Int.add_comm s2 s1]
      · have h2n : ¬(0 < l2 ∧ l2 - s1 ≤ 0) := by tauto
        simp [hl2, h2n, hw1, hw1b, hw2, Int.add_comm s2 s1]

/-- C4 witness: Page(skip 1, limit 5) over Page(skip 2, limit 4) over
Fixed[7] merges into Page(skip 3, limit 3). -/
theorem c4_witness :
    optimizeF 3 (Shape.page (.page (.fixed [7]) 2 4) 1 5) =
      some (.page (.fixed [7]) 3 3, true) := by
  have h := c4_page_merge (.fixed [7]) 1 1 5 2 4 rfl
    (fun _ _ _ h => Shape.noConfusion h)
    (by omega) (by omega) (by omega) (by omega)
    (by omega) (by omega) (by omega) (by omega)
  simpa using h

/-- C5 counterexample: the rewrite yields the optimized value shape, not V
itself: with V = Union(Fixed[1], Null), NodesFrom(subject,
Quads[QuadFilter(subject, V)]) optimizes to Fixed[1], which differs from V. -/
theorem c5_counterexample :
    optimizeF 5 (Shape.nodesFrom .subject
        (.quads [(.subject, .union [.fixed [1], .null])])) =
      some (.fixed [1], true) ∧
    (Shape.fixed [1]) ≠ .union [.fixed [1], .null] :=
  ⟨rfl, fun h => Shape.noConfusion h⟩

/-- C5 (amended): for every direction d and every value shape V unchanged by
optimization, optimizing NodesFrom(d, Quads([QuadFilter(d, V)])) yields V
itself (in general it yields the optimized V). -/
theorem c5_hasa_linksto_elimination (d : Direction) (V : Shape) (n : Nat)
    (hv : optimizeF n V = some (V, false)) :
    optimizeF (n + 2) (.nodesFrom d (.quads [(d, V)])) = some (V, true) := by
  have hvn : V ≠ .null := stable_ne_null hv
  have hvNull : V.isNull = false := stable_isNull_false hv
  have e1 : optimizeF (n + 2) (Shape.nodesFrom d (.quads [(d, V)])) =
      nodesFromOptimize (optimizeF (n + 1)) d (.quads [(d, V)]) := rfl
  rw [e1]
  unfold nodesFromOptimize
  simp only [Shape.isNull, Bool.false_eq_true, if_false]
  have hq : optimizeF (n + 1) (Shape.quads [(d, V)]) =
      some (.quads [(d, V)], (match V with | .fixed _ => true | _ => false)) := by
    have e2 : optimizeF (n + 1) (Shape.quads [(d, V)]) =
        quadsOptimize (optimizeF n) [(d, V)] := rfl
    rw [e2]
    unfold quadsOptimize
    cases V <;>
      first
        | exact absurd rfl hvn
        | simp_all [quadsLoop, listSwap, Shape.isNull]
  rw [hq]
  simp [nodesFromQuads]

/-- C5 witness: NodesFrom(subject, Quads([QuadFilter(subject, Fixed[5])]))
optimizes to Fixed[5]. -/
theorem c5_witness :
    optimizeF 3 (Shape.nodesFrom .subject (.quads [(.subject, .fixed [5])])) =
      some (.fixed [5], true) :=
  c5_hasa_linksto_elimination .subject (.fixed [5]) 1 rfl

end Cayley

namespace Cayley

theorem vfNextLoop_any (filter : QVal → Bool × Option String) (sub : VSub) :
    ∀ (l : List QVal) (e : Option String) (res : Option QVal),
      (vfNextLoop filter sub l e res).1 = l.any (fun w => (filter w).1) := by
  intro l
  induction l with
  | nil => intro e res; simp [vfNextLoop]
  | cons v rest ih =>
    intro e res
    by_cases h : (filter v).1 <;> simp [vfNextLoop, h, ih]

theorem vfNextLoop_err (filter : QVal → Bool × Option String) (sub : VSub) :
    ∀ (l : List QVal) (e : Option String) (res : Option QVal),
      (vfNextLoop filter sub l e res).1 = false →
      (vfNextLoop filter sub l e res).2.err = sub.errv := by
  intro l
  induction l with
  | nil => intro e res _; simp [vfNextLoop]
  | cons v rest ih =>
    intro e res hf
    by_cases h : (filter v).1
    · simp [vfNextLoop, h] at hf
    · simp only [vfNextLoop, h] at hf ⊢
      simp at h
      simp [h] at hf ⊢
      exact ih _ _ hf

/-- C9 counterexample: with a sub-iterator yielding two values and a
predicate that errors (returning false) on the first and passes the second,
Next returns true (not false) while recording the error, and the following
exhausting Next overwrites the recorded error with the sub-iterator's nil
error, so err() no longer reads the predicate error. -/
theorem c9_counterexample :
    vfNext (fun v => if v = QVal.str "a" then (false, some "boom") else (true, none))
        ⟨[.str "a", .str "b"], none⟩ ⟨[.str "a", .str "b"], none, none⟩ =
      (true, ⟨[], some "boom", some (.str "b")⟩) ∧
    vfNext (fun v => if v = QVal.str "a" then (false, some "boom") else (true, none))
        ⟨[.str "a", .str "b"], none⟩ ⟨[], some "boom", some (.str "b")⟩ =
      (false, ⟨[], none, some (.str "b")⟩) :=
  ⟨rfl, rfl⟩

/-- C9 (amended): a predicate error is recorded in err() at evaluation time,
but it is not sticky and next does not stop: contains(v) returns false with
the error recorded whenever the predicate's boolean is false; next returns
true exactly when some remaining value passes the predicate (skipping the
failing ones); and when next returns false the recorded error has been
overwritten with the sub-iterator's error. -/
theorem c9_value_filter_error_handling (filter : QVal → Bool × Option String)
    (sub : VSub) (st : VFState) (v : QVal) :
    ((filter v).1 = false →
      vfContains filter sub st v =
        (false, { st with err := vfRecordErr (filter v).2 st.err })) ∧
    (vfNext filter sub st).1 = st.remaining.any (fun w => (filter w).1) ∧
    ((vfNext filter sub st).1 = false → (vfNext filter sub st).2.err = sub.errv) := by
  refine ⟨?_, vfNextLoop_any filter sub st.remaining st.err st.result,
    vfNextLoop_err filter sub st.remaining st.err st.result⟩
  intro h
  simp [vfContains, h]

/-- C9 witness: a predicate failing with an error on "a" makes contains
record the error and return false, while next still finds "b". -/
theorem c9_witness :
    vfContains (fun v => if v = QVal.str "a" then (false, some "boom") else (true, none))
        ⟨[.str "b"], none⟩ ⟨[.str "b"], none, none⟩ (.str "a") =
      (false, ⟨[.str "b"], some "boom", none⟩) ∧
    (vfNext (fun v => if v = QVal.str "a" then (false, some "boom") else (true, none))
        ⟨[.str "b"], none⟩ ⟨[.str "b"], none, none⟩).1 = true := by
  constructor
  · exact (c9_value_filter_error_handling
      (fun v => if v = QVal.str "a" then (false, some "boom") else (true, none))
      ⟨[.str "b"], none⟩ ⟨[.str "b"], none, none⟩ (.str "a")).1 rfl
  · rw [(c9_value_filter_error_handling
      (fun v => if v = QVal.str "a" then (false, some "boom") else (true, none))
      ⟨[.str "b"], none⟩ ⟨[.str "b"], none, none⟩ (.str "a")).2.1]
    rfl

end Cayley

namespace Cayley

theorem alLookup_append {κ α : Type} [DecidableEq κ] (s t : List (κ × α)) (r : κ) :
    alLookup (s ++ t) r =
      (match alLookup s r with
       | some x => some x
       | none => alLookup t r) := by
  induction s with
  | nil => simp [alLookup]
  | cons p ps ih =>
    by_cases h : p.1 = r
    · simp [alLookup, List.find?_cons, h]
    · simp only [alLookup, List.cons_append, List.find?_cons] at ih ⊢
      simp [h] at ih ⊢
      exact ih

theorem alLookup_single {κ α : Type} [DecidableEq κ] (v : κ) (x : α) (r : κ) :
    alLookup [(v, x)] r = if v = r then some x else none := by
  by_cases h : v = r <;> simp [alLookup, List.find?_cons, h]

theorem alLookup_append_one_none {κ α : Type} [DecidableEq κ]
    (s : List (κ × α)) (v : κ) (x : α) (r : κ) :
    alLookup (s ++ [(v, x)]) r = none ↔ alLookup s r = none ∧ r ≠ v := by
  rw [alLookup_append]
  cases hs : alLookup s r with
  | some y => simp
  | none =>
    rw [alLookup_single]
    by_cases h : v = r
    · subst h
      simp
    · rw [if_neg h]
      constructor
      · intro _
        exact ⟨rfl, fun hh => h hh.symm⟩
      · intro _
        rfl

theorem alLookup_append_one_isSome {κ α : Type} [DecidableEq κ]
    (s : List (κ × α)) (v : κ) (x : α) (r : κ)
    (h : (alLookup s r).isSome) : (alLookup (s ++ [(v, x)]) r).isSome := by
  rw [alLookup_append]
  cases hs : alLookup s r with
  | some y => simp
  | none => rw [hs] at h; simp at h

theorem alLookup_append_one_self {κ α : Type} [DecidableEq κ]
    (s : List (κ × α)) (v : κ) (x : α) :
    (alLookup (s ++ [(v, x)]) v).isSome := by
  rw [alLookup_append]
  cases hs : alLookup s v with
  | some y => simp
  | none => simp [alLookup_single]

theorem unseenCount_append_lt (U : List Ref) (seen : List (Ref × (Nat × Ref)))
    (val : Ref) (pay : Nat × Ref) (hU : val ∈ U)
    (hnone : alLookup seen val = none) :
    unseenCount U (seen ++ [(val, pay)]) < unseenCount U seen := by
  apply Finset.card_lt_card
  rw [Finset.ssubset_iff_of_subset]
  · refine ⟨val, ?_, ?_⟩
    · simp [Finset.mem_filter, List.mem_toFinset, hU, hnone]
    · simp only [Finset.mem_filter]
      intro h
      have h2 := alLookup_append_one_self seen val pay
      rw [h.2] at h2
      simp at h2
  · intro r hr
    simp only [Finset.mem_filter] at hr ⊢
    exact ⟨hr.1, ((alLookup_append_one_none seen val pay r).mp hr.2).1⟩

theorem recRun_complete (U : List Ref) (morphism : List Ref → List (Ref × Ref))
    (B : Nat) (maxDepth : Int)
    (hB : ∀ l, l.Nodup → (∀ r ∈ l, r ∈ U) → (morphism l).length ≤ B)
    (hm : ∀ l p, p ∈ morphism l → p.1 ∈ U) :
    ∀ (fuel : Nat) (st : RecState), RecInv U st → recMeasure U B st < fuel →
      ∃ out, recRun morphism maxDepth fuel st = some out ∧ out.Nodup ∧
        ∀ v ∈ out, alLookup st.seen v = none := by
  intro fuel
  induction fuel with
  | zero => intro st _ h; omega
  | succ f ih =>
    rintro ⟨depth, seen, dc, ni⟩ ⟨hni, hdcnd, hdcU, hdisj⟩ hmeas
    cases ni with
    | nil =>
      by_cases hdone : maxDepth > 0 ∧ (depth : Int) ≥ maxDepth
      · exact ⟨[], by simp [recRun, recStep, hdone], by simp, by simp⟩
      · by_cases hdc : dc = []
        · refine ⟨[], ?_, by simp, by simp⟩
          simp [recRun, recStep, hdone, hdc]
        · have hlen : (morphism dc).length ≤ B := hB dc hdcnd hdcU
          have hstep : recStep morphism maxDepth ⟨depth, seen, dc, []⟩ =
              .cont ⟨depth + 1, seen, [], morphism dc⟩ := by
            simp [recStep, hdone, List.isEmpty_iff, hdc]
          have hinv2 : RecInv U ⟨depth + 1, seen, [], morphism dc⟩ := by
            refine ⟨fun p hp => hm dc p hp, by simp, by simp, .inl (by simp)⟩
          have hm2 : recMeasure U B ⟨depth + 1, seen, [], morphism dc⟩ < f := by
            simp only [recMeasure] at hmeas ⊢
            rw [if_neg hdc] at hmeas
            simp only [List.length_nil] at hmeas
            split_ifs with h0
            · omega
            · simp at h0
          obtain ⟨out, hrun, hnd, hfresh⟩ := ih _ hinv2 hm2
          refine ⟨out, ?_, hnd, fun v hv => hfresh v hv⟩
          simp [recRun, hstep, hrun]
    | cons hd rest =>
      obtain ⟨val, b⟩ := hd
      have hleft : ∀ r ∈ dc, (alLookup seen r).isSome := by
        rcases hdisj with h | h
        · exact h
        · exact absurd h.1 (by simp)
      by_cases hseen : (alLookup seen val).isSome
      · have hstep : recStep morphism maxDepth ⟨depth, seen, dc, (val, b) :: rest⟩ =
            .cont ⟨depth, seen, dc, rest⟩ := by
          simp [recStep, hseen]
        have hinv2 : RecInv U ⟨depth, seen, dc, rest⟩ :=
          ⟨fun p hp => hni p (List.mem_cons_of_mem _ hp), hdcnd, hdcU, .inl hleft⟩
        have hm2 : recMeasure U B ⟨depth, seen, dc, rest⟩ < f := by
          simp only [recMeasure, List.length_cons] at hmeas ⊢
          omega
        obtain ⟨out, hrun, hnd, hfresh⟩ := ih _ hinv2 hm2
        refine ⟨out, ?_, hnd, fun v hv => hfresh v hv⟩
        simp [recRun, hstep, hrun]
      · have hnone : alLookup seen val = none := by
          cases h : alLookup seen val with
          | none => rfl
          | some y => rw [h] at hseen; simp at hseen
        have hvalU : val ∈ U := hni (val, b) (List.mem_cons_self _ _)
        have hvdc : val ∉ dc := by
          intro hin
          have h2 := hleft val hin
          rw [hnone] at h2
          simp at h2
        have hstep : recStep morphism maxDepth ⟨depth, seen, dc, (val, b) :: rest⟩ =
            .emit val ⟨depth, seen ++ [(val, (depth, b))], dc ++ [val], rest⟩ := by
          simp [recStep, hseen]
        have hinv2 : RecInv U ⟨depth, seen ++ [(val, (depth, b))], dc ++ [val], rest⟩ := by
          refine ⟨fun p hp => hni p (List.mem_cons_of_mem _ hp), ?_, ?_, .inl ?_⟩
          · simp [List.nodup_append, hdcnd, hvdc]
          · intro r hr
            rcases List.mem_append.mp hr with h | h
            · exact hdcU r h
            · simp at h; subst h; exact hvalU
          · intro r hr
            rcases List.mem_append.mp hr with h | h
            · exact alLookup_append_one_isSome _ _ _ _ (hleft r h)
            · simp at h; subst h
              exact alLookup_append_one_self _ _ _
        have hm2 : recMeasure U B ⟨depth, seen ++ [(val, (depth, b))], dc ++ [val], rest⟩ < f := by
          have hlt := unseenCount_append_lt U seen val (depth, b) hvalU hnone
          have hmul : unseenCount U (seen ++ [(val, (depth, b))]) * (B + 2) + (B + 2) ≤
              unseenCount U seen * (B + 2) := by
            have h1 : unseenCount U (seen ++ [(val, (depth, b))]) + 1 ≤ unseenCount U seen := hlt
            calc unseenCount U (seen ++ [(val, (depth, b))]) * (B + 2) + (B + 2)
                = (unseenCount U (seen ++ [(val, (depth, b))]) + 1) * (B + 2) := by ring
              _ ≤ unseenCount U seen * (B + 2) := Nat.mul_le_mul_right _ h1
          simp only [recMeasure, List.length_cons] at hmeas ⊢
          have hne : ¬(dc ++ [val] = []) := by simp
          rw [if_neg hne]
          by_cases hdc0 : dc = []
          · rw [if_pos hdc0] at hmeas
            omega
          · rw [if_neg hdc0] at hmeas
            omega
        obtain ⟨out, hrun, hnd, hfresh⟩ := ih _ hinv2 hm2
        refine ⟨val :: out, ?_, ?_, ?_⟩
        · simp [recRun, hstep, hrun]
        · refine List.nodup_cons.mpr ⟨?_, hnd⟩
          intro hin
          have hf := hfresh val hin
          have h2 := alLookup_append_one_self seen val (depth, b)
          rw [hf] at h2
          simp at h2
        · intro v hv
          rcases List.mem_cons.mp hv with rfl | hv2
          · exact hnone
          · exact ((alLookup_append_one_none seen val (depth, b) v).mp (hfresh v hv2)).1

/-- C6: over any finite universe U of refs (with B bounding the rows any one
morphism step can produce), a full drain of the Recursive iterator starting
from a duplicate-free base frontier terminates within a budget linear in |U|
and emits each ref at most once, even when the step morphism induces cycles:
refs recorded in the seen map are never re-emitted. -/
theorem c6_recursive_drain_terminates_unique
    (U base : List Ref) (morphism : List Ref → List (Ref × Ref))
    (B : Nat) (maxDepth : Int)
    (hB : ∀ l, l.Nodup → (∀ r ∈ l, r ∈ U) → (morphism l).length ≤ B)
    (hm : ∀ l p, p ∈ morphism l → p.1 ∈ U)
    (hbnd : base.Nodup) (hbU : ∀ r ∈ base, r ∈ U) :
    ∃ out, recRun morphism maxDepth (U.toFinset.card * (B + 2) + B + 2)
        ⟨0, [], base, []⟩ = some out ∧ out.Nodup := by
  have hmeas : recMeasure U B ⟨0, [], base, []⟩ <
      U.toFinset.card * (B + 2) + B + 2 := by
    have h1 : unseenCount U [] = U.toFinset.card := by
      simp [unseenCount, alLookup]
    simp only [recMeasure, h1, List.length_nil]
    split_ifs <;> omega
  obtain ⟨out, hrun, hnd, _⟩ := recRun_complete U morphism B maxDepth hB hm
    (U.toFinset.card * (B + 2) + B + 2) ⟨0, [], base, []⟩
    ⟨by simp, hbnd, hbU, .inr ⟨rfl, rfl⟩⟩ hmeas
  exact ⟨out, hrun, hnd⟩

/-- C6 witness: the two-node cycle 1 → 2 → 1 with base frontier [1]. The
drain terminates within the budget and emits without duplicates. -/
theorem c6_witness :
    ∃ out, recRun
        (fun l => if 1 ∈ l then [(2, 1)] else if 2 ∈ l then [(1, 2)] else [])
        50 9 ⟨0, [], [1], []⟩ = some out ∧ out.Nodup := by
  have h := c6_recursive_drain_terminates_unique [1, 2] [1]
      (fun l => if 1 ∈ l then [(2, 1)] else if 2 ∈ l then [(1, 2)] else []) 1 50
      (by
        intro l _ _
        dsimp only
        split_ifs <;> simp)
      (by
        intro l p hp
        dsimp only at hp
        split_ifs at hp <;> simp at hp <;> subst hp <;> decide)
      (by decide) (by decide)
  have hc : ([1, 2] : List Ref).toFinset.card * (1 + 2) + 1 + 2 = 9 := by decide
  rw [hc] at h
  exact h

theorem optimizeF_fixed_ne (m : Nat) (f : List Ref) (hf : f ≠ []) (hm : 1 ≤ m) :
    optimizeF m (.fixed f) = some (.fixed f, false) := by
  cases m with
  | zero => omega
  | succ k => simp [optimizeF, optimizeStep, List.isEmpty_iff, hf]

theorem unionMembers_fix (opt : Shape → Option (Shape × Bool)) (l : List Shape)
    (h : ∀ c ∈ l, ∃ b, opt c = some (c, b)) :
    ∃ b, unionMembers opt l = some (l, b) := by
  induction l with
  | nil => exact ⟨false, rfl⟩
  | cons c cs ih =>
    obtain ⟨bc, hbc⟩ := h c (List.mem_cons_self _ _)
    obtain ⟨br, hbr⟩ := ih (fun x hx => h x (List.mem_cons_of_mem _ hx))
    refine ⟨bc || br, ?_⟩
    simp [unionMembers, hbc, hbr]

theorem clearFixedTags_go (l : List Shape) (h : ∀ c ∈ l, c.notFixedTags = true) :
    ∀ a : List Shape,
      List.foldl
        (fun acc s =>
          match s with
          | .fixedTags t onS => (acc.1 ++ [onS], some (alMerge (acc.2.getD []) t))
          | s => (acc.1 ++ [s], acc.2))
        (a, (none : Option (List (String × Ref)))) l = (a ++ l, none) := by
  induction l with
  | nil => intro a; simp
  | cons c cs ih =>
    intro a
    have hc := h c (List.mem_cons_self _ _)
    have ih2 := ih (fun x hx => h x (List.mem_cons_of_mem _ hx))
    rw [List.foldl_cons]
    cases c <;> simp [Shape.notFixedTags] at hc ⊢ <;> rw [ih2] <;> simp

theorem clearFixedTags_id (l : List Shape) (h : ∀ c ∈ l, c.notFixedTags = true) :
    clearFixedTags l = (l, none) := by
  have := clearFixedTags_go l h []
  simpa [clearFixedTags] using this

theorem removeNullsGo_id (l : List Shape) (h : ∀ c ∈ l, c.isNull = false) :
    ∀ (k i : Nat) (b : Bool), l.length - i ≤ k → removeNullsGo l i b = (l, b) := by
  intro k
  induction k with
  | zero =>
    intro i b hk
    rw [removeNullsGo]
    rw [dif_neg (by omega)]
  | succ m ih =>
    intro i b hk
    rw [removeNullsGo]
    by_cases hi : i < l.length
    · rw [dif_pos hi]
      have hn := h (l.get ⟨i, hi⟩) (l.get_mem i hi)
      rw [hn]
      simp only [Bool.false_eq_true, if_false]
      exact ih (i + 1) b (by omega)
    · rw [dif_neg hi]

theorem removeNulls_id (l : List Shape) (h : ∀ c ∈ l, c.isNull = false) :
    removeNulls l = (l, false) :=
  removeNullsGo_id l h l.length 0 false (by omega)

theorem unionOptimize_fix (opt : Shape → Option (Shape × Bool)) (l : List Shape)
    (hlen : 2 ≤ l.length)
    (hnull : ∀ c ∈ l, c.isNull = false) (hnft : ∀ c ∈ l, c.notFixedTags = true)
    (hfix : ∀ c ∈ l, ∃ b, opt c = some (c, b)) :
    ∃ b, unionOptimize opt l = some (.union l, b) := by
  obtain ⟨b1, h1⟩ := unionMembers_fix opt l hfix
  have h2 := clearFixedTags_id l hnft
  have h3 := removeNulls_id l hnull
  rcases l with _ | ⟨a, _ | ⟨b, r⟩⟩ <;> simp at hlen
  exact ⟨b1, by simp [unionOptimize, h1, h2, h3]⟩

theorem intersectMembers_fix (opt : Shape → Option (Shape × Bool)) (l : List Shape)
    (hnull : ∀ c ∈ l, c.isNull = false)
    (hfix : ∀ c ∈ l, ∃ b, opt c = some (c, b)) :
    ∃ b, intersectMembers opt l = some (.ok l b) := by
  induction l with
  | nil => exact ⟨false, rfl⟩
  | cons c cs ih =>
    obtain ⟨bc, hbc⟩ := hfix c (List.mem_cons_self _ _)
    obtain ⟨br, hbr⟩ := ih (fun x hx => hnull x (List.mem_cons_of_mem _ hx))
      (fun x hx => hfix x (List.mem_cons_of_mem _ hx))
    have hc := hnull c (List.mem_cons_self _ _)
    refine ⟨bc || br, ?_⟩
    simp [intersectMembers, hbc, hbr, hc]

theorem inert_not_null (c : Shape) (h : c.inertMember = true) :
    c.isNull = false ∧ c.notFixedTags = true := by
  cases c <;> simp_all [Shape.inertMember, Shape.isNull, Shape.notFixedTags]

theorem ipass_inert (l : List Shape) (h : ∀ c ∈ l, c.inertMember = true) :
    ∀ st : IPass, ipass l st =
      ⟨st.rest ++ l, st.fixedSets, st.tags, st.qacc,
        st.onlyAll && l.isEmpty, st.changed⟩ := by
  induction l with
  | nil => intro st; cases st; simp [ipass]
  | cons c cs ih =>
    intro st
    have hc := h c (List.mem_cons_self _ _)
    have ih2 := ih (fun x hx => h x (List.mem_cons_of_mem _ hx))
    cases c <;> simp [Shape.inertMember] at hc <;> rw [show ipass _ st = _ from rfl] <;>
      simp [ipass, ih2]

theorem ipass_fixeds (fsets : List (List Ref)) :
    ∀ (l : List Shape) (st : IPass),
      ipass ((fsets.map Shape.fixed) ++ l) st =
        ipass l ⟨st.rest, st.fixedSets ++ fsets, st.tags, st.qacc,
          st.onlyAll && fsets.isEmpty, st.changed || !fsets.isEmpty⟩ := by
  induction fsets with
  | nil => intro l st; cases st; simp
  | cons f fs ih =>
    intro l st
    simp only [List.map_cons, List.cons_append]
    rw [show ipass (Shape.fixed f :: (fs.map Shape.fixed ++ l)) st =
        ipass (fs.map Shape.fixed ++ l)
          { st with fixedSets := st.fixedSets ++ [f], changed := true, onlyAll := false }
      from by simp [ipass]]
    rw [ih]
    cases st
    simp

theorem intersectFixed_fix (opt : Shape → Option (Shape × Bool))
    (fsets : List (List Ref)) (rest : List Shape) (ch : Bool)
    (hlen : 2 ≤ (fsets.map Shape.fixed ++ rest).length)
    (hr : ∀ c ∈ rest, c.inertMember = true) :
    intersectFixed opt fsets rest ch =
      some (.intersect (fsets.map Shape.fixed ++ rest), ch) := by
  match fsets with
  | [] =>
    rcases rest with _ | ⟨a, _ | ⟨b, r⟩⟩ <;> simp at hlen <;>
      simp [intersectFixed, intersectTail]
  | [fix] =>
    rcases rest with _ | ⟨a, r2⟩
    · simp at hlen
    · rcases r2 with _ | ⟨b, r3⟩
      · have ha := hr a (List.mem_cons_self _ _)
        cases a <;> simp [Shape.inertMember] at ha <;>
          simp [intersectFixed, intersectTail]
      · simp [intersectFixed, intersectTail]
  | f1 :: f2 :: fs =>
    simp [intersectFixed, intersectTail]

theorem intersectOptimize_fix (opt : Shape → Option (Shape × Bool))
    (fsets : List (List Ref)) (rest : List Shape)
    (hlen : 2 ≤ (fsets.map Shape.fixed ++ rest).length)
    (hr : ∀ c ∈ rest, c.inertMember = true)
    (hfixed : ∀ f ∈ fsets, opt (.fixed f) = some (.fixed f, false))
    (hrfix : ∀ c ∈ rest, ∃ b, opt c = some (c, b)) :
    ∃ b, intersectOptimize opt (fsets.map Shape.fixed ++ rest) =
      some (.intersect (fsets.map Shape.fixed ++ rest), b) := by
  have hnull : ∀ c ∈ fsets.map Shape.fixed ++ rest, c.isNull = false := by
    intro c hc
    rcases List.mem_append.mp hc with h | h
    · obtain ⟨f, _, rfl⟩ := List.mem_map.mp h
      rfl
    · exact (inert_not_null c (hr c h)).1
  have hfix : ∀ c ∈ fsets.map Shape.fixed ++ rest, ∃ b, opt c = some (c, b) := by
    intro c hc
    rcases List.mem_append.mp hc with h | h
    · obtain ⟨f, hf, rfl⟩ := List.mem_map.mp h
      exact ⟨false, hfixed f hf⟩
    · exact hrfix c h
  obtain ⟨b1, h1⟩ := intersectMembers_fix opt _ hnull hfix
  have hnft : ∀ c ∈ fsets.map Shape.fixed ++ rest, c.notFixedTags = true := by
    intro c hc
    rcases List.mem_append.mp hc with h | h
    · obtain ⟨f, _, rfl⟩ := List.mem_map.mp h
      rfl
    · exact (inert_not_null c (hr c h)).2
  have h2 := clearFixedTags_id _ hnft
  have hst : ipass (fsets.map Shape.fixed ++ rest) ⟨[], [], [], none, true, b1⟩ =
      ⟨rest, fsets, [], none, (true && fsets.isEmpty) && rest.isEmpty,
        b1 || !fsets.isEmpty⟩ := by
    rw [ipass_fixeds, ipass_inert rest hr]
    simp
  have hoa : ((true && fsets.isEmpty) && rest.isEmpty) = false := by
    cases fsets with
    | nil =>
      rcases rest with _ | ⟨a, r⟩
      · simp at hlen
      · simp
    | cons f fs => simp
  have hne : ¬((fsets.map Shape.fixed ++ rest).isEmpty = true) := by
    rcases fsets with _ | _ <;> rcases rest with _ | _ <;> simp_all
  refine ⟨b1 || !fsets.isEmpty, ?_⟩
  rw [intersectOptimize, if_neg hne, h1]
  simp [h2, hst, hoa, intersectQuads,
    intersectFixed_fix opt fsets rest (b1 || !fsets.isEmpty) hlen hr, intersectWrap]
  intro hf hrest
  rw [hf, hrest] at hlen
  simp at hlen

theorem unionNF_mem (l : List Shape) (h : unionNF l = true) :
    ∀ c ∈ l, c.isNull = false ∧ c.notFixedTags = true ∧ c.optNF = true := by
  induction l with
  | nil => intro c hc; cases hc
  | cons a as ih =>
    simp only [unionNF, Bool.and_eq_true, Bool.not_eq_true'] at h
    intro c hc
    rcases List.mem_cons.mp hc with rfl | hc2
    · exact ⟨h.1.1.1, h.1.1.2, h.1.2⟩
    · exact ih h.2 c hc2

theorem intersectNF_false_mem (l : List Shape) (h : intersectNF false l = true) :
    ∀ c ∈ l, c.inertMember = true ∧ c.optNF = true := by
  induction l with
  | nil => intro c hc; cases hc
  | cons a as ih =>
    intro c hc
    cases a with
    | fixed f => simp [intersectNF] at h
    | _ =>
      first
      | (simp only [intersectNF, Bool.and_eq_true] at h
         rcases List.mem_cons.mp hc with rfl | hc2
         · exact ⟨h.1.1, h.1.2⟩
         · exact ih h.2 c hc2)

theorem intersectNF_structure (l : List Shape) (h : intersectNF true l = true) :
    ∃ (fsets : List (List Ref)) (rest : List Shape),
      l = fsets.map Shape.fixed ++ rest ∧ (∀ f ∈ fsets, f ≠ []) ∧
      (∀ c ∈ rest, c.inertMember = true ∧ c.optNF = true) := by
  induction l with
  | nil => exact ⟨[], [], rfl, by simp, by simp⟩
  | cons a as ih =>
    cases a with
    | fixed f =>
      simp only [intersectNF, Bool.true_and, Bool.and_eq_true, Bool.not_eq_true'] at h
      obtain ⟨fsets, rest, heq, h1, h2⟩ := ih h.2
      have hf : f ≠ [] := by
        intro he
        rw [he] at h
        simp at h
      refine ⟨f :: fsets, rest, by simp [heq], ?_, h2⟩
      intro g hg
      rcases List.mem_cons.mp hg with rfl | hg2
      · exact hf
      · exact h1 g hg2
    | _ =>
      first
      | (simp only [intersectNF, Bool.and_eq_true] at h
         exact ⟨[], _ :: as, rfl, by simp,
           fun c hc => by
             rcases List.mem_cons.mp hc with rfl | hc2
             · exact ⟨h.1.1, h.1.2⟩
             · exact intersectNF_false_mem as h.2 c hc2⟩)

theorem saveOptimize_fix (opt : Shape → Option (Shape × Bool)) (tg : List String)
    (f : Shape) (bf : Bool) (htg : tg ≠ []) (hf : f.isNull = false)
    (h : opt f = some (f, bf)) :
    saveOptimize opt tg f = some (.save tg f, bf) := by
  simp [saveOptimize, hf, h, htg]

theorem fixedTagsOptimize_fix (opt : Shape → Option (Shape × Bool))
    (tg : List (String × Ref)) (o : Shape) (bo : Bool) (htg : tg ≠ [])
    (ho : o.isNull = false) (hnft : o.notFixedTags = true)
    (h : opt o = some (o, bo)) :
    fixedTagsOptimize opt tg o = some (.fixedTags tg o, bo) := by
  cases o <;> simp_all [fixedTagsOptimize, Shape.isNull, Shape.notFixedTags]

theorem pageOptimize_fix (opt : Shape → Option (Shape × Bool)) (f : Shape)
    (sk lim : Int) (bf : Bool) (hf : f.isNull = false) (hnp : f.notPage = true)
    (hw : ¬(sk ≤ 0 ∧ lim ≤ 0)) (h : opt f = some (f, bf)) :
    pageOptimize opt f sk lim = some (.page f sk lim, bf) := by
  cases f <;> simp_all [pageOptimize, Shape.isNull, Shape.notPage]

theorem uniqueOptimize_fix (opt : Shape → Option (Shape × Bool)) (f : Shape)
    (bf : Bool) (hf : f.isNull = false) (h : opt f = some (f, bf)) :
    uniqueOptimize opt f = some (.unique f, bf) := by
  simp [uniqueOptimize, hf, h]

theorem materializeOptimize_fix (opt : Shape → Option (Shape × Bool)) (sz : Int)
    (v : Shape) (bv : Bool) (hv : v.isNull = false) (h : opt v = some (v, bv)) :
    materializeOptimize opt sz v = some (.materialize sz v, bv) := by
  simp [materializeOptimize, hv, h]

theorem shapeListWeight_ge_length (l : List Shape) : l.length ≤ shapeListWeight l := by
  induction l with
  | nil => simp [shapeListWeight]
  | cons a as ih =>
    have := Shape.weight_pos a
    simp only [List.length_cons, shapeListWeight]
    omega

theorem optNF_fix (w : Nat) : ∀ s : Shape, s.weight ≤ w → s.optNF = true →
    ∀ n, s.weight ≤ n → ∃ b, optimizeF n s = some (s, b) := by
  induction w using Nat.strong_induction_on with
  | _ w ih =>
  intro s hw hnf n hn
  have hwp := Shape.weight_pos s
  obtain ⟨m, rfl⟩ : ∃ m, n = m + 1 := ⟨n - 1, by omega⟩
  cases s with
  | null => exact ⟨true, rfl⟩
  | allNodes => exact ⟨false, rfl⟩
  | fixed f =>
    have hf : f ≠ [] := by
      simp only [Shape.optNF, Bool.not_eq_true'] at hnf
      intro he
      rw [he] at hnf
      simp at hnf
    exact ⟨false, optimizeF_fixed_ne _ f hf (by omega)⟩
  | quads l => simp [Shape.optNF] at hnf
  | nodesFrom d q => simp [Shape.optNF] at hnf
  | quadsAction a b c d => simp [Shape.optNF] at hnf
  | union l =>
    simp only [Shape.optNF, Bool.and_eq_true, decide_eq_true_eq] at hnf
    obtain ⟨hlen, hul⟩ := hnf
    have hmem := unionNF_mem l hul
    have hwl : Shape.weight (.union l) = 1 + shapeListWeight l := rfl
    have hfix : ∀ c ∈ l, ∃ b, optimizeF m c = some (c, b) := by
      intro c hc
      have hcw := shapeListWeight_mem_le hc
      exact ih (w - 1) (by omega) c (by rw [hwl] at hw; omega) (hmem c hc).2.2 m
        (by rw [hwl] at hn; omega)
    obtain ⟨b, hb⟩ := unionOptimize_fix (optimizeF m) l hlen
      (fun c hc => (hmem c hc).1) (fun c hc => (hmem c hc).2.1) hfix
    exact ⟨b, hb⟩
  | intersect l =>
    simp only [Shape.optNF, Bool.and_eq_true, decide_eq_true_eq] at hnf
    obtain ⟨hlen, hil⟩ := hnf
    obtain ⟨fsets, rest, rfl, hfne, hrmem⟩ := intersectNF_structure l hil
    have hwl : Shape.weight (.intersect (fsets.map Shape.fixed ++ rest)) =
        1 + shapeListWeight (fsets.map Shape.fixed ++ rest) := rfl
    have hlw := shapeListWeight_ge_length (fsets.map Shape.fixed ++ rest)
    have hfixed : ∀ f ∈ fsets, optimizeF m (.fixed f) = some (.fixed f, false) := by
      intro f hf
      refine optimizeF_fixed_ne m f (hfne f hf) ?_
      rw [hwl] at hn
      omega
    have hrfix : ∀ c ∈ rest, ∃ b, optimizeF m c = some (c, b) := by
      intro c hc
      have hcw := shapeListWeight_mem_le
        (List.mem_append_right (fsets.map Shape.fixed) hc)
      exact ih (w - 1) (by omega) c (by rw [hwl] at hw; omega) (hrmem c hc).2 m
        (by rw [hwl] at hn; omega)
    obtain ⟨b, hb⟩ := intersectOptimize_fix (optimizeF m) fsets rest hlen
      (fun c hc => (hrmem c hc).1) hfixed hrfix
    exact ⟨b, hb⟩
  | save tg f =>
    simp only [Shape.optNF, Bool.and_eq_true, Bool.not_eq_true'] at hnf
    obtain ⟨⟨htg, hfn⟩, hfo⟩ := hnf
    have htg' : tg ≠ [] := by
      intro he
      rw [he] at htg
      simp at htg
    have hwl : Shape.weight (.save tg f) = 1 + f.weight := rfl
    obtain ⟨bf, hbf⟩ := ih (w - 1) (by omega) f (by rw [hwl] at hw; omega) hfo m
      (by rw [hwl] at hn; omega)
    exact ⟨bf, saveOptimize_fix (optimizeF m) tg f bf htg' hfn hbf⟩
  | fixedTags tg o =>
    simp only [Shape.optNF, Bool.and_eq_true, Bool.not_eq_true'] at hnf
    obtain ⟨⟨⟨htg, hon⟩, hnft⟩, hoo⟩ := hnf
    have htg' : tg ≠ [] := by
      intro he
      rw [he] at htg
      simp at htg
    have hwl : Shape.weight (.fixedTags tg o) = 1 + o.weight := rfl
    obtain ⟨bo, hbo⟩ := ih (w - 1) (by omega) o (by rw [hwl] at hw; omega) hoo m
      (by rw [hwl] at hn; omega)
    exact ⟨bo, fixedTagsOptimize_fix (optimizeF m) tg o bo htg' hon hnft hbo⟩
  | page f sk lim =>
    simp only [Shape.optNF, Bool.and_eq_true, Bool.or_eq_true, Bool.not_eq_true',
      decide_eq_true_eq] at hnf
    obtain ⟨⟨⟨⟨hfn, hnp⟩, hsk⟩, hor⟩, hfo⟩ := hnf
    have hwnd : ¬(sk ≤ 0 ∧ lim ≤ 0) := by
      rintro ⟨h1, h2⟩
      rcases hor with h | h <;> omega
    have hwl : Shape.weight (.page f sk lim) = 1 + f.weight := rfl
    obtain ⟨bf, hbf⟩ := ih (w - 1) (by omega) f (by rw [hwl] at hw; omega) hfo m
      (by rw [hwl] at hn; omega)
    exact ⟨bf, pageOptimize_fix (optimizeF m) f sk lim bf hfn hnp hwnd hbf⟩
  | unique f =>
    simp only [Shape.optNF, Bool.and_eq_true, Bool.not_eq_true'] at hnf
    obtain ⟨hfn, hfo⟩ := hnf
    have hwl : Shape.weight (.unique f) = 1 + f.weight := rfl
    obtain ⟨bf, hbf⟩ := ih (w - 1) (by omega) f (by rw [hwl] at hw; omega) hfo m
      (by rw [hwl] at hn; omega)
    exact ⟨bf, uniqueOptimize_fix (optimizeF m) f bf hfn hbf⟩
  | materialize sz v =>
    simp only [Shape.optNF, Bool.and_eq_true, Bool.not_eq_true'] at hnf
    obtain ⟨hvn, hvo⟩ := hnf
    have hwl : Shape.weight (.materialize sz v) = 1 + v.weight := rfl
    obtain ⟨bv, hbv⟩ := ih (w - 1) (by omega) v (by rw [hwl] at hw; omega) hvo m
      (by rw [hwl] at hn; omega)
    exact ⟨bv, materializeOptimize_fix (optimizeF m) sz v bv hvn hbv⟩

/-- C2 (amended): the optimize pass is not idempotent in general (see the
counterexample: the change flag is re-reported, and a wrapper whose child
collapsed to Null needs a second pass), but it is structurally idempotent on
optimized normal forms: whenever a pass returns a quad-operator-free shape in
optimized normal form (Null-free children, operator arities at least two,
collected Fixed sets leading the intersections, non-degenerate windows),
re-optimizing returns exactly that shape. -/
theorem c2_optimize_idempotent_on_normal_forms (n : Nat) (s s1 : Shape) (b1 : Bool)
    (h1 : optimizeF n s = some (s1, b1)) (hnf : s1.optNF = true) :
    ∃ b2, optimizeF s1.weight s1 = some (s1, b2) :=
  optNF_fix s1.weight s1 le_rfl hnf s1.weight le_rfl

unseal ipass
unseal removeNullsGo

set_option maxRecDepth 4000

/-- C2 witness: the repository's "remove all in intersect and reorder" query.
Its optimized form (Save over the two collected Fixed sets) is in normal form
and a second pass reproduces it exactly. -/
theorem c2_witness :
    ∃ b2, optimizeF (Shape.save ["all"] (.intersect [.fixed [1, 2], .fixed [2]])).weight
        (.save ["all"] (.intersect [.fixed [1, 2], .fixed [2]])) =
      some (.save ["all"] (.intersect [.fixed [1, 2], .fixed [2]]), b2) := by
  exact c2_optimize_idempotent_on_normal_forms 10
    (.intersect [.allNodes, .fixed [1, 2], .save ["all"] .allNodes, .fixed [2]])
    (.save ["all"] (.intersect [.fixed [1, 2], .fixed [2]])) true (by rfl) rfl
